import Mathlib

/-! # Semaphores, locks and condition variables of threads/synch.c

A shallow embedding of `src/threads/synch.c`.

* Threads are named by natural numbers (what `thread_current ()` returns).
* Wait queues (`struct list`) are Lean lists, front first.
* The count of a semaphore is a C `unsigned`: a natural number on which `++` and `--`
  are computed modulo `2 ^ 32`.
* A function of the source that can be interrupted or can block is cut into its atomic
  sections (the stretches between two points where another thread can run); the functions
  `sema_step` and `step` below run one such section of one thread.
* `ASSERT` failures panic the kernel: the state is kept and flagged, nothing runs afterwards.
-/

namespace Synch

/-- Thread identity, the value of `thread_current ()`. -/
abbrev Tid := Nat

/-- Number of values of the C type `unsigned`. -/
def UINT_RANGE : Nat := 4294967296

/-! ## The list library and the thread comparator (not part of synch.c) -/

/-- Modelled from the spec: `list_insert_ordered` of the kernel list library, which is used by
synch.c but defined elsewhere. The spec has waiters inserted "at its priority-sorted position":
the element goes in front of the first element it is `less` than, hence behind every element
it is not `less` than. -/
def list_insert_ordered {α : Type} (less : α → α → Bool) (elem : α) : List α → List α
  | [] => [elem]
  | e :: rest =>
    if less elem e then elem :: e :: rest else e :: list_insert_ordered less elem rest

/-- Modelled from the spec: `list_sort` of the kernel list library ("re-sort it by current
priority"). Elements are inserted one after the other, from the front, into an ordered list. -/
def list_sort {α : Type} (less : α → α → Bool) (l : List α) : List α :=
  l.foldl (fun acc x => list_insert_ordered less x acc) []

/-- Modelled from the spec: `thread_compare_priority` of threads/thread.c, "priority comparator
for threads": thread `a` goes before thread `b` when its priority is strictly greater. -/
def thread_compare_priority (priority : Tid → Int) (a b : Tid) : Bool :=
  decide (priority a > priority b)

/-! ## Semaphores -/

/-- The `struct semaphore`: current value and the list of waiting threads. -/
structure semaphore where
  value : Nat
  waiters : List Tid
deriving DecidableEq

/-- The function `sema_init` (lines 44-50); the argument is converted to `unsigned`. -/
def sema_init (value : Nat) : semaphore :=
  { value := value % UINT_RANGE, waiters := [] }

/-- The statement `sema->value--` on an `unsigned`: decrementing 0 wraps around to the
largest value, `2 ^ 32 - 1`. -/
def uint_dec (v : Nat) : Nat := if v = 0 then UINT_RANGE - 1 else v - 1

/-- The statement `sema->value++` on an `unsigned`: computed modulo `2 ^ 32`. -/
def uint_inc (v : Nat) : Nat := (v + 1) % UINT_RANGE

/-- One pass of thread `t` through `sema_down` with interrupts off (lines 69-75): either the
value is 0, the thread queues itself and calls `thread_block` (result `false`), or the loop is
left, the value is decremented and `sema_down` returns (result `true`). A thread that was
blocked runs this pass again when it is resumed. -/
def sema_down_pass (priority : Tid → Int) (sema : semaphore) (t : Tid) : semaphore × Bool :=
  if sema.value = 0 then
    ({ sema with
        waiters := list_insert_ordered (thread_compare_priority priority) t sema.waiters },
      false)
  else
    ({ sema with value := uint_dec sema.value }, true)

/-- The function `sema_try_down` (lines 84-102): the new semaphore and the returned flag. -/
def sema_try_down (sema : semaphore) : semaphore × Bool :=
  if sema.value > 0 then
    ({ sema with value := uint_dec sema.value }, true)
  else
    (sema, false)

/-- The function `sema_up` (lines 108-125): the new semaphore and the thread handed to
`thread_unblock`, if any. -/
def sema_up (priority : Tid → Int) (sema : semaphore) : semaphore × Option Tid :=
  if sema.waiters.isEmpty then
    ({ sema with value := uint_inc sema.value }, none)
  else
    match list_sort (thread_compare_priority priority) sema.waiters with
    | [] => ({ value := uint_inc sema.value, waiters := [] }, none)
    | t :: rest => ({ value := uint_inc sema.value, waiters := rest }, some t)

/-! ## A semaphore shared by threads -/

/-- Where a thread stands with respect to the semaphore. -/
inductive sema_pc where
  /-- Not inside a call on the semaphore. -/
  | outside
  /-- Inside `sema_down`, suspended in `thread_block` (line 73). -/
  | blocked
  /-- Inside `sema_down`, made ready by `thread_unblock`, about to test the loop condition
  of line 69 again. -/
  | resumed
deriving DecidableEq

/-- The calls a thread can make on the semaphore. -/
inductive sema_call where
  | down
  | try_down
  | up
deriving DecidableEq

/-- What happens next: a thread outside calls a function, a resumed thread goes on, or the
scheduler changes a priority. -/
inductive sema_event where
  | call (t : Tid) (c : sema_call)
  | resume (t : Tid)
  | set_priority (t : Tid) (p : Int)

/-- One semaphore, the priorities of the threads and where each thread stands. -/
structure sema_sys where
  sema : semaphore
  priority : Tid → Int
  pc_of : Tid → sema_pc

/-- Effect of `thread_unblock` on the thread popped by `sema_up`. -/
def sema_unblock (pc_of : Tid → sema_pc) : Option Tid → Tid → sema_pc
  | none => pc_of
  | some u => Function.update pc_of u
      (match pc_of u with
       | .blocked => .resumed
       | p => p)

/-- Thread `t` runs its pass through `sema_down`. -/
def sema_sys_down (s : sema_sys) (t : Tid) : sema_sys :=
  let r := sema_down_pass s.priority s.sema t
  { s with sema := r.1,
           pc_of := Function.update s.pc_of t (if r.2 then .outside else .blocked) }

/-- One atomic section of the semaphore system; `none` when the event cannot happen (the
thread is not where the event needs it). -/
def sema_step (s : sema_sys) : sema_event → Option sema_sys
  | .call t .down =>
    if s.pc_of t = .outside then some (sema_sys_down s t) else none
  | .resume t =>
    if s.pc_of t = .resumed then some (sema_sys_down s t) else none
  | .call t .try_down =>
    if s.pc_of t = .outside then some { s with sema := (sema_try_down s.sema).1 } else none
  | .call t .up =>
    if s.pc_of t = .outside then
      let r := sema_up s.priority s.sema
      some { s with sema := r.1, pc_of := sema_unblock s.pc_of r.2 }
    else none
  | .set_priority t p => some { s with priority := Function.update s.priority t p }

/-- Runs a sequence of events; `none` when one of them cannot happen. -/
def sema_exec (s : sema_sys) : List sema_event → Option sema_sys
  | [] => some s
  | e :: es =>
    match sema_step s e with
    | none => none
    | some s1 => sema_exec s1 es

/-- The system right after `sema_init (value)`: every thread outside. -/
def sema_boot (value : Nat) (priority : Tid → Int) : sema_sys :=
  { sema := sema_init value, priority := priority, pc_of := fun _ => .outside }

/-! ## Locks -/

/-- The `struct lock`: the holder (`none` for NULL) and the binary semaphore. -/
structure lock where
  holder : Option Tid
  semaphore : semaphore
deriving DecidableEq

/-- The function `lock_init` (lines 177-183). -/
def lock_init : lock := { holder := none, semaphore := sema_init 1 }

/-- The function `lock_held_by_current_thread` (lines 247-252), called by thread `t`. -/
def lock_held_by_current_thread (l : lock) (t : Tid) : Bool := decide (l.holder = some t)

/-! ## Condition variables -/

/-- The `struct condition`: the list of waiting `semaphore_elem` cells. A cell is a local
variable of `cond_wait`, so it is named by the thread whose `cond_wait` call owns it. -/
structure condition where
  waiters : List Tid
deriving DecidableEq

/-- The function `cond_init` (lines 263-268). -/
def cond_init : condition := { waiters := [] }

/-- The read `list_entry (list_begin (waiters), struct thread, elem)->priority` of
lines 283-284: the priority of the first waiter. On an empty list `list_begin` is the tail
sentinel, which lies in no `struct thread`; the read then yields the word `stale` that
happens to lie at that offset. -/
def front_priority (priority : Tid → Int) (stale : Int) (sema : semaphore) : Int :=
  match sema.waiters with
  | [] => stale
  | u :: _ => priority u

/-- The function `sema_compare_priority` (lines 271-285) on the cells `l` and `s`, whose
private semaphores are `cell l` and `cell s`. -/
def sema_compare_priority (priority : Tid → Int) (stale : Tid → Int)
    (cell : Tid → semaphore) (l s : Tid) : Bool :=
  decide (front_priority priority (stale l) (cell l)
    > front_priority priority (stale s) (cell s))

/-! ## The kernel: one lock, one condition variable, any number of threads -/

/-- Where a thread stands. The flag `w` tells that the lock function was called from
`cond_wait`, the flag `b` that `cond_signal` was called from `cond_broadcast`. -/
inductive pc where
  /-- Outside every function of synch.c. -/
  | idle
  /-- In `lock_acquire`, inside `sema_down (&lock->semaphore)` before the test of line 69. -/
  | acq_down (w : Bool)
  /-- In `lock_acquire`, suspended in `thread_block` (line 73). -/
  | acq_blocked (w : Bool)
  /-- In `lock_acquire`, `sema_down` has returned, line 204 not yet run. -/
  | acq_set (w : Bool)
  /-- In `lock_try_acquire`, `sema_try_down` has returned true, line 223 not yet run. -/
  | try_set
  /-- In `lock_release`, line 240 done, `sema_up` of line 241 not yet run. -/
  | rel_up (w : Bool)
  /-- In `cond_wait`, the cell is queued (line 320), `lock_release` not yet called. -/
  | wait_release
  /-- In `cond_wait`, inside `sema_down (&waiter.semaphore)` before the test of line 69. -/
  | wait_down
  /-- In `cond_wait`, suspended in `thread_block` on the private semaphore. -/
  | wait_blocked
  /-- In `cond_signal`, cell `c` popped (line 347), its `sema_up` not yet run. -/
  | sig_up (c : Tid) (b : Bool)
  /-- In `cond_broadcast`, before the loop test of line 363. -/
  | bc_test
deriving DecidableEq

/-- The functions an idle thread can call. -/
inductive call where
  | lock_acquire
  | lock_try_acquire
  | lock_release
  | cond_wait
  | cond_signal
  | cond_broadcast
deriving DecidableEq

/-- What happens next: an idle thread calls a function, a thread inside a function runs its
next atomic section, or the scheduler changes a priority. -/
inductive event where
  | call (t : Tid) (c : call)
  | run (t : Tid)
  | set_priority (t : Tid) (p : Int)

/-- State of the kernel. The last three fields are history variables, which no transition
reads: `owns t` is set when `t` completes an acquire and cleared when it releases, `ups c`
counts the `sema_up` calls on cell `c` since its `sema_init`, and `signalled` lists the cells
on which `cond_signal` ran `sema_up`, oldest first. -/
structure kernel where
  priority : Tid → Int
  stale : Tid → Int
  lock : lock
  cond : condition
  cell : Tid → semaphore
  pc_of : Tid → pc
  panicked : Bool
  owns : Tid → Bool
  ups : Tid → Nat
  signalled : List Tid

/-- A failed `ASSERT`: the kernel panics. -/
def panic (s : kernel) : kernel := { s with panicked := true }

/-- Thread `t` moves on to `p`. -/
def goto (s : kernel) (t : Tid) (p : pc) : kernel :=
  { s with pc_of := Function.update s.pc_of t p }

/-- Effect of `thread_unblock` on the thread popped by `sema_up`: it will test the loop
condition of `sema_down` again. -/
def unblock (pc_of : Tid → pc) : Option Tid → Tid → pc
  | none => pc_of
  | some u => Function.update pc_of u
      (match pc_of u with
       | .acq_blocked w => .acq_down w
       | .wait_blocked => .wait_down
       | p => p)

/-- Lines 196-199 of `lock_acquire`: the assertion that the caller does not hold the lock. -/
def lock_acquire_enter (s : kernel) (t : Tid) (w : Bool) : kernel :=
  if lock_held_by_current_thread s.lock t then panic s else goto s t (.acq_down w)

/-- Line 202 of `lock_acquire`: one pass through `sema_down (&lock->semaphore)`. -/
def lock_acquire_down (s : kernel) (t : Tid) (w : Bool) : kernel :=
  let r := sema_down_pass s.priority s.lock.semaphore t
  { s with lock := { s.lock with semaphore := r.1 },
           pc_of := Function.update s.pc_of t (if r.2 then .acq_set w else .acq_blocked w) }

/-- Line 204 of `lock_acquire`: `lock->holder = thread_current ()`, then return. -/
def lock_acquire_set (s : kernel) (t : Tid) : kernel :=
  { s with lock := { s.lock with holder := some t },
           owns := Function.update s.owns t true,
           pc_of := Function.update s.pc_of t .idle }

/-- Lines 217-220 of `lock_try_acquire`: the assertion and `sema_try_down`; on failure the
function returns false at once. -/
def lock_try_acquire_enter (s : kernel) (t : Tid) : kernel :=
  if lock_held_by_current_thread s.lock t then panic s
  else
    let r := sema_try_down s.lock.semaphore
    { s with lock := { s.lock with semaphore := r.1 },
             pc_of := Function.update s.pc_of t (if r.2 then .try_set else .idle) }

/-- Lines 221-224 of `lock_try_acquire` after a success: set the holder, return true. -/
def lock_try_acquire_set (s : kernel) (t : Tid) : kernel :=
  { s with lock := { s.lock with holder := some t },
           owns := Function.update s.owns t true,
           pc_of := Function.update s.pc_of t .idle }

/-- Lines 235-240 of `lock_release`: the assertion that the caller holds the lock, then
`lock->holder = NULL`. -/
def lock_release_enter (s : kernel) (t : Tid) (w : Bool) : kernel :=
  if lock_held_by_current_thread s.lock t then
    { s with lock := { s.lock with holder := none },
             owns := Function.update s.owns t false,
             pc_of := Function.update s.pc_of t (.rel_up w) }
  else panic s

/-- Line 241 of `lock_release`: `sema_up (&lock->semaphore)`, then return (to `cond_wait`,
which goes on with line 322, when `w` is set). -/
def lock_release_up (s : kernel) (t : Tid) (w : Bool) : kernel :=
  let r := sema_up s.priority s.lock.semaphore
  { s with lock := { s.lock with semaphore := r.1 },
           pc_of := Function.update (unblock s.pc_of r.2) t (if w then .wait_down else .idle) }

/-- Lines 312-320 of `cond_wait`: the assertion that the caller holds the lock, `sema_init`
of the private semaphore and the ordered insertion of the cell. -/
def cond_wait_enter (s : kernel) (t : Tid) : kernel :=
  if lock_held_by_current_thread s.lock t then
    let cell := Function.update s.cell t (sema_init 0)
    { s with cell := cell,
             ups := Function.update s.ups t 0,
             cond := { waiters := list_insert_ordered
                         (sema_compare_priority s.priority s.stale cell) t s.cond.waiters },
             pc_of := Function.update s.pc_of t .wait_release }
  else panic s

/-- Line 322 of `cond_wait`: one pass through `sema_down (&waiter.semaphore)`; when it
returns, `lock_acquire` is entered (line 323). -/
def cond_wait_down (s : kernel) (t : Tid) : kernel :=
  let r := sema_down_pass s.priority (s.cell t) t
  let s1 := { s with cell := Function.update s.cell t r.1 }
  if r.2 then lock_acquire_enter s1 t true else goto s1 t .wait_blocked

/-- Lines 336-347 of `cond_signal` up to `list_pop_front`: the assertion that the caller
holds the lock, the emptiness test, the sort and the pop. With no waiter the function
returns. -/
def cond_signal_enter (s : kernel) (t : Tid) (b : Bool) : kernel :=
  if lock_held_by_current_thread s.lock t then
    if s.cond.waiters.isEmpty then goto s t (if b then .bc_test else .idle)
    else
      match list_sort (sema_compare_priority s.priority s.stale s.cell) s.cond.waiters with
      | [] => goto s t (if b then .bc_test else .idle)
      | c :: rest =>
        { s with cond := { waiters := rest },
                 pc_of := Function.update s.pc_of t (.sig_up c b) }
  else panic s

/-- Line 347 of `cond_signal`: `sema_up` on the private semaphore of the popped cell `c`,
then return (to the loop of `cond_broadcast` when `b` is set). -/
def cond_signal_up (s : kernel) (t : Tid) (c : Tid) (b : Bool) : kernel :=
  let r := sema_up s.priority (s.cell c)
  { s with cell := Function.update s.cell c r.1,
           ups := Function.update s.ups c (s.ups c + 1),
           signalled := s.signalled ++ [c],
           pc_of := Function.update (unblock s.pc_of r.2) t (if b then .bc_test else .idle) }

/-- Lines 363-364 of `cond_broadcast`: the loop test; with a waiter left `cond_signal` is
called, otherwise the function returns. -/
def cond_broadcast_test (s : kernel) (t : Tid) : kernel :=
  if s.cond.waiters.isEmpty then goto s t .idle else cond_signal_enter s t true

/-- One atomic section of the kernel; `none` when the event cannot happen: the kernel has
panicked, the calling thread is not idle, or the thread to run is idle or blocked. -/
def step (s : kernel) (e : event) : Option kernel :=
  if s.panicked then none
  else
    match e with
    | .set_priority t p => some { s with priority := Function.update s.priority t p }
    | .call t c =>
      match s.pc_of t with
      | .idle =>
        some (match c with
          | .lock_acquire => lock_acquire_enter s t false
          | .lock_try_acquire => lock_try_acquire_enter s t
          | .lock_release => lock_release_enter s t false
          | .cond_wait => cond_wait_enter s t
          | .cond_signal => cond_signal_enter s t false
          | .cond_broadcast => goto s t .bc_test)
      | _ => none
    | .run t =>
      match s.pc_of t with
      | .idle => none
      | .acq_blocked _ => none
      | .wait_blocked => none
      | .acq_down w => some (lock_acquire_down s t w)
      | .acq_set _ => some (lock_acquire_set s t)
      | .try_set => some (lock_try_acquire_set s t)
      | .rel_up w => some (lock_release_up s t w)
      | .wait_release => some (lock_release_enter s t true)
      | .wait_down => some (cond_wait_down s t)
      | .sig_up c b => some (cond_signal_up s t c b)
      | .bc_test => some (cond_broadcast_test s t)

/-- Runs a sequence of events; `none` when one of them cannot happen. -/
def exec (s : kernel) : List event → Option kernel
  | [] => some s
  | e :: es =>
    match step s e with
    | none => none
    | some s1 => exec s1 es

/-- The kernel after `lock_init` and `cond_init`, every thread idle. -/
def boot (priority stale : Tid → Int) : kernel :=
  { priority := priority, stale := stale, lock := lock_init, cond := cond_init,
    cell := fun _ => sema_init 0, pc_of := fun _ => .idle, panicked := false,
    owns := fun _ => false, ups := fun _ => 0, signalled := [] }

/-- The states the kernel can be in: those reached from a boot state by events. -/
inductive reachable : kernel → Prop where
  | boot (priority stale : Tid → Int) : reachable (boot priority stale)
  | step {s s1 : kernel} (e : event) : reachable s → step s e = some s1 → reachable s1

/-- Thread `t` has nothing to run: it is idle or blocked, or the kernel has panicked. -/
def at_rest (s : kernel) (t : Tid) : Bool :=
  s.panicked ||
    (match s.pc_of t with
     | .idle => true
     | .acq_blocked _ => true
     | .wait_blocked => true
     | _ => false)

/-- Thread `t` runs without being interrupted until it has nothing to run; `none` when the
fuel (a bound on the number of sections) runs out before. -/
def run_alone : Nat → kernel → Tid → Option kernel
  | 0, s, t => if at_rest s t then some s else none
  | n + 1, s, t =>
    if at_rest s t then some s
    else
      match step s (.run t) with
      | none => none
      | some s1 => run_alone n s1 t

/-- The function `cond_signal` (lines 334-350) run without interruption by idle thread `t`. -/
def cond_signal (s : kernel) (t : Tid) : Option kernel :=
  match step s (.call t .cond_signal) with
  | none => none
  | some s1 => run_alone 1 s1 t

/-- The function `cond_broadcast` (lines 358-365) run without interruption by idle thread
`t`; `none` when the fuel runs out before the loop ends. -/
def cond_broadcast (fuel : Nat) (s : kernel) (t : Tid) : Option kernel :=
  match step s (.call t .cond_broadcast) with
  | none => none
  | some s1 => run_alone fuel s1 t

/-! ## Predicates on states, used to state the properties -/

/-- A thread is between taking the unit of the lock's semaphore and setting the holder, or
between clearing the holder and giving the unit back. -/
def mid : pc → Bool
  | .acq_set _ => true
  | .try_set => true
  | .rel_up _ => true
  | _ => false

/-- The invariant of the lock: the value is 0 or 1, the history variable `owns` agrees with
the holder field, and the unit of the semaphore is in one place only: in the value, with the
holder, or with the one thread that is between the semaphore and the holder field. -/
structure lock_inv (s : kernel) : Prop where
  value_le : s.lock.semaphore.value ≤ 1
  owns_iff : ∀ t, s.owns t = true ↔ s.lock.holder = some t
  mid_excl : ∀ t, mid (s.pc_of t) = true →
    s.lock.semaphore.value = 0 ∧ s.lock.holder = none ∧ ∀ u, mid (s.pc_of u) = true → u = t
  held_excl : ∀ t, s.lock.holder = some t →
    s.lock.semaphore.value = 0 ∧ ∀ u, mid (s.pc_of u) = false

/-- The thread an event belongs to. -/
def event_thread : event → Option Tid
  | .call t _ => some t
  | .run t => some t
  | .set_priority _ _ => none

/-- The thread is inside a call of `cond_wait` (lines 308-324). -/
def in_wait : pc → Bool
  | .wait_release => true
  | .rel_up true => true
  | .wait_down => true
  | .wait_blocked => true
  | .acq_down true => true
  | .acq_blocked true => true
  | .acq_set true => true
  | _ => false

/-- Runs a sequence of events from `s`; the state `s` itself when one of them cannot happen. -/
def run_events (s : kernel) (es : List event) : kernel := (exec s es).getD s

/-- The event is a call of `sema_up`. -/
def is_up : sema_event → Bool
  | .call _ .up => true
  | _ => false

/-- Runs a sequence of events on the semaphore system; the state `s` itself when one of them
cannot happen. -/
def sema_run_events (s : sema_sys) (es : List sema_event) : sema_sys := (sema_exec s es).getD s

/-- The function `lock_try_acquire` (lines 213-225) run without interruption by idle thread
`t`: the state it leaves and the flag it returns; `none` when the call cannot happen or the
assertion fails. -/
def lock_try_acquire (s : kernel) (t : Tid) : Option (kernel × Bool) :=
  match step s (.call t .lock_try_acquire) with
  | none => none
  | some s1 =>
    if s1.panicked then none
    else
      match s1.pc_of t with
      | .try_set => (run_alone 1 s1 t).map (fun s2 => (s2, true))
      | _ => some (s1, false)

/-- The thread is in `cond_wait`, its cell is initialised and it has not got past the
`sema_down` on its private semaphore (lines 320-322). -/
def queued_pc : pc → Bool
  | .wait_release => true
  | .rel_up true => true
  | .wait_down => true
  | .wait_blocked => true
  | _ => false

/-- The thread is suspended inside the `sema_down` of `lock_acquire`. -/
def is_acq_blocked : pc → Bool
  | .acq_blocked _ => true
  | _ => false

/-- The thread is in `cond_signal` between the pop and the `sema_up`. -/
def is_sig_up : pc → Bool
  | .sig_up _ _ => true
  | _ => false

/-- The invariant of the waiters list of the lock's semaphore: no thread is listed twice and
every listed thread is suspended in `lock_acquire`. -/
structure lock_queue_inv (waiters : List Tid) (pc_of : Tid → pc) : Prop where
  nodup : waiters.Nodup
  blocked : ∀ u ∈ waiters, is_acq_blocked (pc_of u) = true

/-- The invariant of the condition variable and the cells, stated on the queue, the private
semaphores, the counters of `sema_up` calls and the positions of the threads.
A queued cell belongs to a thread inside `cond_wait`, has count 0 and was not signalled; so
has a cell that was popped and whose `sema_up` is still to come, and only one thread is about
to signal it. The waiters list of a cell is empty or holds its owner alone, who is then
suspended on it. Counts and the number of `sema_up` calls are at most 1. -/
structure cell_inv (waiters : List Tid) (cell : Tid → semaphore) (ups : Tid → Nat)
    (pc_of : Tid → pc) : Prop where
  nodup : waiters.Nodup
  queued : ∀ c ∈ waiters, queued_pc (pc_of c) = true ∧ (cell c).value = 0 ∧ ups c = 0 ∧
    ∀ x b, pc_of x ≠ .sig_up c b
  popped : ∀ x c b, pc_of x = .sig_up c b →
    queued_pc (pc_of c) = true ∧ (cell c).value = 0 ∧ ups c = 0 ∧
    ∀ y b1, pc_of y = .sig_up c b1 → y = x
  cell_waiters : ∀ c, (cell c).waiters = [] ∨
    ((cell c).waiters = [c] ∧ pc_of c = .wait_blocked)
  bounds : ∀ c, (cell c).value ≤ 1 ∧ ups c ≤ 1

/-- The invariant of the wait queues on a state of the kernel. -/
def queues_inv (s : kernel) : Prop :=
  lock_queue_inv s.lock.semaphore.waiters s.pc_of ∧
    cell_inv s.cond.waiters s.cell s.ups s.pc_of

/-- Modelled from the spec: the calls of `less` that `list_insert_ordered` makes, in order:
the new element against the elements of the list from the front, up to and including the
first one it is `less` than. -/
def list_insert_ordered_calls {α : Type} (less : α → α → Bool) (elem : α) :
    List α → List (α × α)
  | [] => []
  | e :: rest =>
    (elem, e) :: (if less elem e then [] else list_insert_ordered_calls less elem rest)

/-- Modelled from the spec: the calls of `less` that `list_sort` makes, those of its
insertions one after the other. -/
def list_sort_calls {α : Type} (less : α → α → Bool) (l : List α) : List (α × α) :=
  (l.foldl
    (fun (acc : List α × List (α × α)) x =>
      (list_insert_ordered less x acc.1, acc.2 ++ list_insert_ordered_calls less x acc.1))
    ([], [])).2

/-- The pairs of cells on which line 320 of `cond_wait`, called by `t`, calls
`sema_compare_priority`; the cell of `t` has just been initialised (line 317). -/
def cond_wait_calls (s : kernel) (t : Tid) : List (Tid × Tid) :=
  list_insert_ordered_calls
    (sema_compare_priority s.priority s.stale (Function.update s.cell t (sema_init 0)))
    t s.cond.waiters

/-- The pairs of cells on which line 346 of `cond_signal` calls `sema_compare_priority`. -/
def cond_signal_calls (s : kernel) : List (Tid × Tid) :=
  list_sort_calls (sema_compare_priority s.priority s.stale s.cell) s.cond.waiters

/-! ## States used as examples -/

/-- Boot state with every thread at the default priority 31 and every stale word 0. -/
def demo_boot : kernel := boot (fun _ => 31) (fun _ => 0)

/-- Thread 1 has acquired the lock; thread 2 has called `lock_acquire` and is blocked. -/
def demo_held : kernel :=
  run_events demo_boot
    [.call 1 .lock_acquire, .run 1, .run 1, .call 2 .lock_acquire, .run 2]

/-- Thread 1 waited on the condition, thread 2 signalled it and released the lock; thread 1
has taken the lock's semaphore again and is about to run line 204, the last of `cond_wait`. -/
def demo_resumed : kernel :=
  run_events demo_boot
    [.call 1 .lock_acquire, .run 1, .run 1, .call 1 .cond_wait, .run 1, .run 1, .run 1,
     .call 2 .lock_acquire, .run 2, .run 2, .call 2 .cond_signal, .run 2,
     .call 2 .lock_release, .run 2, .run 1, .run 1]

/-- Priorities of the example of the spec: thread 1 has priority 1, thread 2 priority 5. -/
def demo_priority : Tid → Int := fun t => if t = 1 then 1 else 5

/-- A semaphore created by `sema_init (1)` after thread 1 took its unit with `sema_down`
and thread 3 gave one back with `sema_up`: the count is 1 again. -/
def demo_sema_free : sema_sys :=
  sema_run_events (sema_boot 1 demo_priority) [.call 1 .down, .call 3 .up]

/-- A semaphore created by `sema_init (0)` on which threads 1 and 2 are blocked. -/
def demo_sema_blocked : sema_sys :=
  sema_run_events (sema_boot 0 demo_priority) [.call 1 .down, .call 2 .down]

/-- Threads 1 (priority 1) and 2 (priority 5) have called `cond_wait` and are blocked on
their private semaphores; thread 3 has acquired the lock. -/
def demo_two_waiting : kernel :=
  run_events (boot demo_priority (fun _ => 0))
    [.call 1 .lock_acquire, .run 1, .run 1, .call 1 .cond_wait, .run 1, .run 1, .run 1,
     .call 2 .lock_acquire, .run 2, .run 2, .call 2 .cond_wait, .run 2, .run 2, .run 2,
     .call 3 .lock_acquire, .run 3, .run 3]

/-- Thread 1 (priority 5) has called `cond_wait` and is blocked on its private semaphore;
thread 2 (priority 10) has acquired the lock. Every stale word is 0. -/
def demo_one_waiting : kernel :=
  run_events (boot (fun t => if t = 1 then 5 else 10) (fun _ => 0))
    [.call 1 .lock_acquire, .run 1, .run 1, .call 1 .cond_wait, .run 1, .run 1, .run 1,
     .call 2 .lock_acquire, .run 2, .run 2]

/-- Thread 1 (priority 5) is blocked in `cond_wait`; thread 2 (priority 10) has queued its
cell in `cond_wait` and released the lock but has not yet run `sema_down` on its private
semaphore; thread 3 has acquired the lock. Every stale word is 0. -/
def demo_released : kernel :=
  run_events demo_one_waiting
    [.call 2 .cond_wait, .run 2, .run 2, .call 3 .lock_acquire, .run 3, .run 3]

/-! # Theorems -/

/-! ## Facts about the list library -/

theorem list_insert_ordered_perm {α : Type} (less : α → α → Bool) (x : α) (l : List α) :
    (list_insert_ordered less x l).Perm (x :: l) := by
  induction l with
  | nil => exact List.Perm.refl _
  | cons e rest ih =>
    unfold list_insert_ordered
    split
    · exact List.Perm.refl _
    · exact (List.Perm.cons e ih).trans (List.Perm.swap x e rest)

theorem list_sort_aux_perm {α : Type} (less : α → α → Bool) (l acc : List α) :
    (l.foldl (fun acc x => list_insert_ordered less x acc) acc).Perm (acc ++ l) := by
  induction l generalizing acc with
  | nil => simp
  | cons x xs ih =>
    simp only [List.foldl_cons]
    refine (ih _).trans ?_
    refine ((list_insert_ordered_perm less x acc).append_right xs).trans ?_
    simp only [List.cons_append]
    exact List.perm_middle.symm

theorem list_sort_perm {α : Type} (less : α → α → Bool) (l : List α) :
    (list_sort less l).Perm l := by
  have h := list_sort_aux_perm less l []
  simpa [list_sort] using h

/-- Inserting by a key, strictly greater first, keeps a list with non-increasing keys so. -/
theorem list_insert_ordered_sorted {α : Type} (key : α → Int) (x : α) (l : List α)
    (h : l.Pairwise (fun a b => key a ≥ key b)) :
    (list_insert_ordered (fun a b => decide (key a > key b)) x l).Pairwise
      (fun a b => key a ≥ key b) := by
  induction l with
  | nil => simp [list_insert_ordered]
  | cons e rest ih =>
    unfold list_insert_ordered
    rw [List.pairwise_cons] at h
    by_cases hx : key x > key e
    · simp only [hx, decide_True, if_true]
      refine List.pairwise_cons.2 ⟨?_, List.pairwise_cons.2 h⟩
      intro b hb
      rcases List.mem_cons.1 hb with rfl | hb
      · exact le_of_lt hx
      · exact le_trans (h.1 b hb) (le_of_lt hx)
    · simp only [hx, decide_False, if_false, Bool.false_eq_true]
      refine List.pairwise_cons.2 ⟨?_, ih h.2⟩
      intro b hb
      have hb2 := (list_insert_ordered_perm _ x rest).subset hb
      rcases List.mem_cons.1 hb2 with rfl | hb2
      · exact not_lt.1 hx
      · exact h.1 b hb2

theorem list_sort_aux_sorted {α : Type} (key : α → Int) (l acc : List α)
    (h : acc.Pairwise (fun a b => key a ≥ key b)) :
    (l.foldl (fun acc x => list_insert_ordered (fun a b => decide (key a > key b)) x acc)
      acc).Pairwise (fun a b => key a ≥ key b) := by
  induction l generalizing acc with
  | nil => simpa using h
  | cons x xs ih =>
    simp only [List.foldl_cons]
    exact ih _ (list_insert_ordered_sorted key x acc h)

theorem list_sort_sorted {α : Type} (key : α → Int) (l : List α) :
    (list_sort (fun a b => decide (key a > key b)) l).Pairwise (fun a b => key a ≥ key b) :=
  list_sort_aux_sorted key l [] List.Pairwise.nil

theorem mid_unblock (pc_of : Tid → pc) (w : Option Tid) (u : Tid) :
    mid (unblock pc_of w u) = mid (pc_of u) := by
  cases w with
  | none => rfl
  | some v =>
    simp only [unblock]
    by_cases h : u = v
    · subst h
      simp only [Function.update_same]
      cases pc_of u <;> rfl
    · simp [Function.update_noteq h]

theorem lock_inv_frame {s s1 : kernel} (h : lock_inv s)
    (hh : s1.lock.holder = s.lock.holder)
    (hv : s1.lock.semaphore.value = s.lock.semaphore.value)
    (ho : s1.owns = s.owns)
    (hm : ∀ u, mid (s1.pc_of u) = mid (s.pc_of u)) : lock_inv s1 := by
  constructor
  · rw [hv]; exact h.value_le
  · intro t; rw [ho, hh]; exact h.owns_iff t
  · intro t ht
    rw [hm] at ht
    rw [hv, hh]
    refine ⟨(h.mid_excl t ht).1, (h.mid_excl t ht).2.1, ?_⟩
    intro u hu
    rw [hm] at hu
    exact (h.mid_excl t ht).2.2 u hu
  · intro t ht
    rw [hh] at ht
    rw [hv]
    refine ⟨(h.held_excl t ht).1, ?_⟩
    intro u
    rw [hm]
    exact (h.held_excl t ht).2 u

theorem mid_update_of_eq (pc_of : Tid → pc) (t : Tid) (p : pc) (h : mid p = mid (pc_of t))
    (u : Tid) : mid (Function.update pc_of t p u) = mid (pc_of u) := by
  by_cases hu : u = t
  · subst hu; simp [h]
  · simp [Function.update_noteq hu]

theorem lock_inv_panic {s : kernel} (h : lock_inv s) : lock_inv (panic s) :=
  lock_inv_frame h rfl rfl rfl (fun _ => rfl)

theorem lock_inv_goto {s : kernel} (h : lock_inv s) (t : Tid) (p : pc)
    (hp : mid p = mid (s.pc_of t)) : lock_inv (goto s t p) :=
  lock_inv_frame h rfl rfl rfl (mid_update_of_eq s.pc_of t p hp)

theorem uint_dec_one : uint_dec 1 = 0 := by decide

theorem uint_inc_zero : uint_inc 0 = 1 := by decide

theorem lock_inv_no_mid_of_pos {s : kernel} (h : lock_inv s)
    (hv : s.lock.semaphore.value ≠ 0) :
    s.lock.semaphore.value = 1 ∧ s.lock.holder = none ∧ ∀ u, mid (s.pc_of u) = false := by
  refine ⟨?_, ?_, ?_⟩
  · have := h.value_le; omega
  · cases hh : s.lock.holder with
    | none => rfl
    | some t => exact absurd (h.held_excl t hh).1 hv
  · intro u
    cases hm : mid (s.pc_of u) with
    | false => rfl
    | true => exact absurd (h.mid_excl u hm).1 hv

theorem lock_inv_take {s : kernel} (h : lock_inv s) (t : Tid) (p : pc)
    (hv : s.lock.semaphore.value ≠ 0) (w : List Tid) :
    lock_inv { s with lock := { s.lock with semaphore := { value := uint_dec s.lock.semaphore.value, waiters := w } },
                      pc_of := Function.update s.pc_of t p } := by
  obtain ⟨h1, hh, hm⟩ := lock_inv_no_mid_of_pos h hv
  have hmid : ∀ u, mid (Function.update s.pc_of t p u) = true → u = t := by
    intro u hu
    by_contra hne
    rw [Function.update_noteq hne, hm u] at hu
    exact Bool.false_ne_true hu
  constructor
  · simp [h1, uint_dec_one]
  · intro u; exact h.owns_iff u
  · intro u hu
    refine ⟨by simp [h1, uint_dec_one], hh, ?_⟩
    intro v hv2
    rw [hmid u hu, hmid v hv2]
  · intro u hu
    simp only [hh] at hu
    exact absurd hu (by simp)

theorem lock_inv_acquire_down {s : kernel} (h : lock_inv s) (t : Tid) (w : Bool)
    (ht : mid (s.pc_of t) = false) : lock_inv (lock_acquire_down s t w) := by
  unfold lock_acquire_down sema_down_pass
  by_cases hv : s.lock.semaphore.value = 0
  · simp only [hv, if_true]
    refine lock_inv_frame h rfl (by simp [hv]) rfl ?_
    exact mid_update_of_eq s.pc_of t _ (by rw [ht]; rfl)
  · simp only [hv, if_false]
    exact lock_inv_take h t _ hv _

theorem lock_inv_set {s : kernel} (h : lock_inv s) (t : Tid)
    (ht : mid (s.pc_of t) = true) :
    lock_inv { s with lock := { s.lock with holder := some t },
                      owns := Function.update s.owns t true,
                      pc_of := Function.update s.pc_of t .idle } := by
  obtain ⟨hv, hh, hu⟩ := h.mid_excl t ht
  have hnomid : ∀ u, mid (Function.update s.pc_of t pc.idle u) = false := by
    intro u
    by_cases hne : u = t
    · subst hne; simp [mid]
    · rw [Function.update_noteq hne]
      cases hm : mid (s.pc_of u) with
      | false => rfl
      | true => exact absurd (hu u hm) hne
  constructor
  · simp [hv]
  · intro u
    by_cases hne : u = t
    · subst hne; simp
    · simp only [Function.update_noteq hne]
      have h1 := h.owns_iff u
      rw [hh] at h1
      constructor
      · intro h2; exact absurd (h1.1 h2) (by simp)
      · intro h2
        simp only [Option.some.injEq] at h2
        exact absurd h2.symm hne
  · intro u hm
    rw [hnomid u] at hm
    exact absurd hm (by simp)
  · intro u _
    exact ⟨hv, hnomid⟩

theorem lock_inv_release_enter {s : kernel} (h : lock_inv s) (t : Tid) (w : Bool) :
    lock_inv (lock_release_enter s t w) := by
  unfold lock_release_enter lock_held_by_current_thread
  by_cases hh : s.lock.holder = some t
  · simp only [hh, decide_True, if_true]
    obtain ⟨hv, hm⟩ := h.held_excl t hh
    have hmid : ∀ u, mid (Function.update s.pc_of t (pc.rel_up w) u) = true → u = t := by
      intro u hu
      by_contra hne
      rw [Function.update_noteq hne, hm u] at hu
      exact Bool.false_ne_true hu
    constructor
    · exact h.value_le
    · intro u
      by_cases hne : u = t
      · subst hne; simp
      · simp only [Function.update_noteq hne]
        have h1 := h.owns_iff u
        rw [hh] at h1
        constructor
        · intro h2
          have := h1.1 h2
          simp only [Option.some.injEq] at this
          exact absurd this.symm hne
        · intro h2; exact absurd h2 (by simp)
    · intro u hu
      refine ⟨hv, rfl, ?_⟩
      intro v hv2
      rw [hmid u hu, hmid v hv2]
    · intro u hu
      exact absurd hu (by simp)
  · simp only [hh, decide_False, if_false, Bool.false_eq_true]
    exact lock_inv_panic h

theorem lock_inv_release_up {s : kernel} (h : lock_inv s) (t : Tid) (w : Bool)
    (ht : mid (s.pc_of t) = true) : lock_inv (lock_release_up s t w) := by
  obtain ⟨hv, hh, hu⟩ := h.mid_excl t ht
  have hval : (sema_up s.priority s.lock.semaphore).1.value = 1 := by
    unfold sema_up
    split
    · simp [hv, uint_inc_zero]
    · split <;> simp [hv, uint_inc_zero]
  have hnomid : ∀ u, mid (Function.update (unblock s.pc_of
      (sema_up s.priority s.lock.semaphore).2) t (if w then pc.wait_down else pc.idle) u)
      = false := by
    intro u
    by_cases hne : u = t
    · subst hne
      cases w <;> simp [mid]
    · rw [Function.update_noteq hne, mid_unblock]
      cases hm : mid (s.pc_of u) with
      | false => rfl
      | true => exact absurd (hu u hm) hne
  unfold lock_release_up
  constructor
  · simp [hval]
  · intro u; exact h.owns_iff u
  · intro u hm
    rw [hnomid u] at hm
    exact absurd hm (by simp)
  · intro u hu2
    simp only [hh] at hu2
    exact absurd hu2 (by simp)

theorem lock_inv_acquire_enter {s : kernel} (h : lock_inv s) (t : Tid) (w : Bool)
    (ht : mid (s.pc_of t) = false) : lock_inv (lock_acquire_enter s t w) := by
  unfold lock_acquire_enter
  split
  · exact lock_inv_panic h
  · exact lock_inv_goto h t _ (by rw [ht]; rfl)

theorem lock_inv_try_acquire_enter {s : kernel} (h : lock_inv s) (t : Tid)
    (ht : mid (s.pc_of t) = false) : lock_inv (lock_try_acquire_enter s t) := by
  unfold lock_try_acquire_enter
  split
  · exact lock_inv_panic h
  · unfold sema_try_down
    by_cases hv : s.lock.semaphore.value = 0
    · simp only [hv, gt_iff_lt, lt_self_iff_false, if_false, Bool.false_eq_true]
      refine lock_inv_frame h rfl rfl rfl ?_
      exact mid_update_of_eq s.pc_of t _ (by rw [ht]; rfl)
    · have hpos : s.lock.semaphore.value > 0 := Nat.pos_of_ne_zero hv
      simp only [hpos, if_true]
      exact lock_inv_take h t _ hv _

theorem lock_inv_cond_wait_enter {s : kernel} (h : lock_inv s) (t : Tid)
    (ht : mid (s.pc_of t) = false) : lock_inv (cond_wait_enter s t) := by
  unfold cond_wait_enter
  split
  · refine lock_inv_frame h rfl rfl rfl ?_
    exact mid_update_of_eq s.pc_of t _ (by rw [ht]; rfl)
  · exact lock_inv_panic h

theorem lock_inv_cond_wait_down {s : kernel} (h : lock_inv s) (t : Tid)
    (ht : mid (s.pc_of t) = false) : lock_inv (cond_wait_down s t) := by
  unfold cond_wait_down
  have h1 : lock_inv
      { s with cell := Function.update s.cell t (sema_down_pass s.priority (s.cell t) t).1 } :=
    lock_inv_frame h rfl rfl rfl (fun _ => rfl)
  simp only
  split
  · exact lock_inv_acquire_enter h1 t true ht
  · exact lock_inv_goto h1 t _ (by rw [ht]; rfl)

theorem lock_inv_cond_signal_enter {s : kernel} (h : lock_inv s) (t : Tid) (b : Bool)
    (ht : mid (s.pc_of t) = false) : lock_inv (cond_signal_enter s t b) := by
  unfold cond_signal_enter
  split
  · split
    · exact lock_inv_goto h t _ (by rw [ht]; cases b <;> rfl)
    · split
      · exact lock_inv_goto h t _ (by rw [ht]; cases b <;> rfl)
      · refine lock_inv_frame h rfl rfl rfl ?_
        exact mid_update_of_eq s.pc_of t _ (by rw [ht]; rfl)
  · exact lock_inv_panic h

theorem lock_inv_cond_signal_up {s : kernel} (h : lock_inv s) (t c : Tid) (b : Bool)
    (ht : mid (s.pc_of t) = false) : lock_inv (cond_signal_up s t c b) := by
  unfold cond_signal_up
  refine lock_inv_frame h rfl rfl rfl ?_
  intro u
  by_cases hne : u = t
  · subst hne
    dsimp only
    rw [Function.update_same, ht]
    cases b <;> rfl
  · dsimp only
    rw [Function.update_noteq hne, mid_unblock]

theorem lock_inv_cond_broadcast_test {s : kernel} (h : lock_inv s) (t : Tid)
    (ht : mid (s.pc_of t) = false) : lock_inv (cond_broadcast_test s t) := by
  unfold cond_broadcast_test
  split
  · exact lock_inv_goto h t _ (by rw [ht]; rfl)
  · exact lock_inv_cond_signal_enter h t true ht

theorem lock_inv_boot (priority stale : Tid → Int) : lock_inv (boot priority stale) := by
  constructor
  · simp [boot, lock_init, sema_init, UINT_RANGE]
  · intro t; simp [boot, lock_init]
  · intro t ht; simp [boot, mid] at ht
  · intro t ht; simp [boot, lock_init] at ht

theorem lock_inv_step {s s1 : kernel} (e : event) (h : lock_inv s)
    (hs : step s e = some s1) : lock_inv s1 := by
  unfold step at hs
  split at hs
  · exact absurd hs (by simp)
  · cases e with
    | set_priority t p =>
      simp only [Option.some.injEq] at hs
      subst hs
      exact lock_inv_frame h rfl rfl rfl (fun _ => rfl)
    | call t c =>
      simp only at hs
      split at hs
      · rename_i hpc
        simp only [Option.some.injEq] at hs
        subst hs
        have ht : mid (s.pc_of t) = false := by rw [hpc]; rfl
        cases c with
        | lock_acquire => exact lock_inv_acquire_enter h t false ht
        | lock_try_acquire => exact lock_inv_try_acquire_enter h t ht
        | lock_release => exact lock_inv_release_enter h t false
        | cond_wait => exact lock_inv_cond_wait_enter h t ht
        | cond_signal => exact lock_inv_cond_signal_enter h t false ht
        | cond_broadcast => exact lock_inv_goto h t _ (by rw [ht]; rfl)
      · exact absurd hs (by simp)
    | run t =>
      simp only at hs
      split at hs <;> rename_i hpc <;>
        simp only [Option.some.injEq, reduceCtorEq] at hs <;> subst hs <;>
        have ht : mid (s.pc_of t) = mid _ := congrArg mid hpc <;>
        simp only [mid] at ht
      · exact lock_inv_acquire_down h t _ ht
      · exact lock_inv_set h t ht
      · exact lock_inv_set h t ht
      · exact lock_inv_release_up h t _ ht
      · exact lock_inv_release_enter h t true
      · exact lock_inv_cond_wait_down h t ht
      · exact lock_inv_cond_signal_up h t _ _ ht
      · exact lock_inv_cond_broadcast_test h t ht

theorem lock_inv_reachable {s : kernel} (h : reachable s) : lock_inv s := by
  induction h with
  | boot priority stale => exact lock_inv_boot priority stale
  | step e _ hs ih => exact lock_inv_step e ih hs

theorem owns_lock_acquire_enter (s : kernel) (t : Tid) (w : Bool) :
    (lock_acquire_enter s t w).owns = s.owns := by
  unfold lock_acquire_enter; split <;> rfl

theorem owns_lock_try_acquire_enter (s : kernel) (t : Tid) :
    (lock_try_acquire_enter s t).owns = s.owns := by
  unfold lock_try_acquire_enter; split <;> rfl

theorem owns_cond_wait_enter (s : kernel) (t : Tid) :
    (cond_wait_enter s t).owns = s.owns := by
  unfold cond_wait_enter; split <;> rfl

theorem owns_cond_wait_down (s : kernel) (t : Tid) :
    (cond_wait_down s t).owns = s.owns := by
  unfold cond_wait_down
  dsimp only
  split
  · rw [owns_lock_acquire_enter]
  · rfl

theorem owns_cond_signal_enter (s : kernel) (t : Tid) (b : Bool) :
    (cond_signal_enter s t b).owns = s.owns := by
  unfold cond_signal_enter
  split
  · split
    · rfl
    · split <;> rfl
  · rfl

theorem owns_cond_broadcast_test (s : kernel) (t : Tid) :
    (cond_broadcast_test s t).owns = s.owns := by
  unfold cond_broadcast_test
  split
  · rfl
  · exact owns_cond_signal_enter s t true

theorem owns_lock_release_enter (s : kernel) (t : Tid) (w : Bool) (u : Tid)
    (h : (lock_release_enter s t w).owns u = true) : s.owns u = true := by
  unfold lock_release_enter at h
  split at h
  · dsimp only at h
    by_cases hu : u = t
    · subst hu; simp at h
    · rwa [Function.update_noteq hu] at h
  · exact h

/-- A thread becomes an owner only by its own last section of an acquire. -/
theorem step_owns_gain {s s1 : kernel} {e : event} {t : Tid} (hs : step s e = some s1)
    (h0 : s.owns t = false) (h1 : s1.owns t = true) :
    e = .run t ∧ mid (s.pc_of t) = true := by
  have hcon : s.owns t = true → e = .run t ∧ mid (s.pc_of t) = true := by
    intro h; rw [h0] at h; exact absurd h (by simp)
  have hset : ∀ u, mid (s.pc_of u) = true →
      Function.update s.owns u true t = true → event.run u = .run t ∧ mid (s.pc_of t) = true := by
    intro u hm hu
    by_cases htu : t = u
    · subst htu; exact ⟨rfl, hm⟩
    · rw [Function.update_noteq htu] at hu
      rw [h0] at hu; exact absurd hu (by simp)
  unfold step at hs
  split at hs
  · exact absurd hs (by simp)
  · cases e with
    | set_priority u p =>
      simp only [Option.some.injEq] at hs
      subst hs
      exact hcon h1
    | call u c =>
      simp only at hs
      split at hs
      · simp only [Option.some.injEq] at hs
        subst hs
        cases c with
        | lock_acquire => rw [owns_lock_acquire_enter] at h1; exact hcon h1
        | lock_try_acquire => rw [owns_lock_try_acquire_enter] at h1; exact hcon h1
        | lock_release => exact hcon (owns_lock_release_enter s u false t h1)
        | cond_wait => rw [owns_cond_wait_enter] at h1; exact hcon h1
        | cond_signal => rw [owns_cond_signal_enter] at h1; exact hcon h1
        | cond_broadcast => exact hcon h1
      · exact absurd hs (by simp)
    | run u =>
      simp only at hs
      split at hs <;> rename_i hpc <;>
        simp only [Option.some.injEq, reduceCtorEq] at hs <;> subst hs <;>
        have hm : mid (s.pc_of u) = mid _ := congrArg mid hpc <;>
        simp only [mid] at hm
      · exact hcon h1
      · exact hset u hm h1
      · exact hset u hm h1
      · exact hcon h1
      · exact hcon (owns_lock_release_enter s u true t h1)
      · rw [owns_cond_wait_down] at h1; exact hcon h1
      · exact hcon h1
      · rw [owns_cond_broadcast_test] at h1; exact hcon h1

theorem reachable_exec {s s1 : kernel} (es : List event) (h : reachable s)
    (he : exec s es = some s1) : reachable s1 := by
  induction es generalizing s with
  | nil =>
    simp only [exec, Option.some.injEq] at he
    subst he; exact h
  | cons e es ih =>
    simp only [exec] at he
    split at he
    · exact absurd he (by simp)
    · rename_i s2 hs2
      exact ih (reachable.step e h hs2) he

/-- C1, mutual exclusion. In every state the kernel can reach, by whatever interleaving of
the sections of `lock_acquire`, `lock_try_acquire` and `lock_release` (and of the condition
variable functions, which call them): at most one thread has completed an acquire without
having released since; `lock_held_by_current_thread` is true for that thread and false for
all others; and the step by which a thread completes an acquire is taken in a state where
the holder is NULL and no thread owns the lock. -/
theorem lock_mutual_exclusion (s : kernel) (h : reachable s) :
    (∀ t u, s.owns t = true → s.owns u = true → t = u) ∧
    (∀ t, lock_held_by_current_thread s.lock t = s.owns t) ∧
    (∀ e s1 t, step s e = some s1 → s.owns t = false → s1.owns t = true →
      e = .run t ∧ s.lock.holder = none ∧ (∀ u, s.owns u = false) ∧
      s1.lock.holder = some t ∧ (∀ u, s1.owns u = true → u = t)) := by
  have hinv := lock_inv_reachable h
  have huniq : ∀ (s : kernel), lock_inv s → ∀ t u, s.owns t = true → s.owns u = true → t = u := by
    intro s hi t u ht hu
    have h1 := (hi.owns_iff t).1 ht
    have h2 := (hi.owns_iff u).1 hu
    rw [h1] at h2
    exact Option.some.inj h2
  refine ⟨huniq s hinv, ?_, ?_⟩
  · intro t
    unfold lock_held_by_current_thread
    by_cases ho : s.owns t = true
    · rw [ho]; exact decide_eq_true ((hinv.owns_iff t).1 ho)
    · have hne : ¬ s.lock.holder = some t := fun hh => ho ((hinv.owns_iff t).2 hh)
      rw [Bool.not_eq_true] at ho
      rw [ho]; exact decide_eq_false hne
  · intro e s1 t hs h0 h1
    obtain ⟨he, hm⟩ := step_owns_gain hs h0 h1
    obtain ⟨_, hh, _⟩ := hinv.mid_excl t hm
    have hinv1 := lock_inv_step e hinv hs
    refine ⟨he, hh, ?_, (hinv1.owns_iff t).1 h1, fun u hu => huniq s1 hinv1 u t hu h1⟩
    intro u
    cases ho : s.owns u with
    | false => rfl
    | true =>
      have := (hinv.owns_iff u).1 ho
      rw [hh] at this
      exact absurd this (by simp)

theorem in_wait_unblock (pc_of : Tid → pc) (w : Option Tid) (u : Tid) :
    in_wait (unblock pc_of w u) = in_wait (pc_of u) := by
  cases w with
  | none => rfl
  | some v =>
    simp only [unblock]
    by_cases h : u = v
    · subst h
      simp only [Function.update_same]
      cases pc_of u <;> first | rfl | (rename_i b; cases b <;> rfl)
    · simp [Function.update_noteq h]

theorem pc_of_lock_acquire_enter_other (s : kernel) {t u : Tid} (w : Bool) (h : t ≠ u) :
    (lock_acquire_enter s u w).pc_of t = s.pc_of t := by
  unfold lock_acquire_enter; split
  · rfl
  · exact Function.update_noteq h _ _

theorem pc_of_lock_acquire_down_other (s : kernel) {t u : Tid} (w : Bool) (h : t ≠ u) :
    (lock_acquire_down s u w).pc_of t = s.pc_of t :=
  Function.update_noteq h _ _

theorem pc_of_lock_acquire_set_other (s : kernel) {t u : Tid} (h : t ≠ u) :
    (lock_acquire_set s u).pc_of t = s.pc_of t :=
  Function.update_noteq h _ _

theorem pc_of_lock_try_acquire_enter_other (s : kernel) {t u : Tid} (h : t ≠ u) :
    (lock_try_acquire_enter s u).pc_of t = s.pc_of t := by
  unfold lock_try_acquire_enter; split
  · rfl
  · exact Function.update_noteq h _ _

theorem pc_of_lock_try_acquire_set_other (s : kernel) {t u : Tid} (h : t ≠ u) :
    (lock_try_acquire_set s u).pc_of t = s.pc_of t :=
  Function.update_noteq h _ _

theorem pc_of_lock_release_enter_other (s : kernel) {t u : Tid} (w : Bool) (h : t ≠ u) :
    (lock_release_enter s u w).pc_of t = s.pc_of t := by
  unfold lock_release_enter; split
  · exact Function.update_noteq h _ _
  · rfl

theorem pc_of_lock_release_up_other (s : kernel) {t u : Tid} (w : Bool) (h : t ≠ u) :
    (lock_release_up s u w).pc_of t
      = unblock s.pc_of (sema_up s.priority s.lock.semaphore).2 t :=
  Function.update_noteq h _ _

theorem pc_of_cond_wait_enter_other (s : kernel) {t u : Tid} (h : t ≠ u) :
    (cond_wait_enter s u).pc_of t = s.pc_of t := by
  unfold cond_wait_enter; split
  · exact Function.update_noteq h _ _
  · rfl

theorem pc_of_cond_wait_down_other (s : kernel) {t u : Tid} (h : t ≠ u) :
    (cond_wait_down s u).pc_of t = s.pc_of t := by
  unfold cond_wait_down
  dsimp only
  split
  · rw [pc_of_lock_acquire_enter_other _ _ h]
  · exact Function.update_noteq h _ _

theorem pc_of_cond_signal_enter_other (s : kernel) {t u : Tid} (b : Bool) (h : t ≠ u) :
    (cond_signal_enter s u b).pc_of t = s.pc_of t := by
  unfold cond_signal_enter; split
  · split
    · exact Function.update_noteq h _ _
    · split
      · exact Function.update_noteq h _ _
      · exact Function.update_noteq h _ _
  · rfl

theorem pc_of_cond_signal_up_other (s : kernel) {t u : Tid} (c : Tid) (b : Bool) (h : t ≠ u) :
    (cond_signal_up s u c b).pc_of t = unblock s.pc_of (sema_up s.priority (s.cell c)).2 t :=
  Function.update_noteq h _ _

theorem pc_of_cond_broadcast_test_other (s : kernel) {t u : Tid} (h : t ≠ u) :
    (cond_broadcast_test s u).pc_of t = s.pc_of t := by
  unfold cond_broadcast_test; split
  · exact Function.update_noteq h _ _
  · exact pc_of_cond_signal_enter_other s true h

/-- A section run by thread `u` changes where another thread stands only by unblocking it. -/
theorem step_pc_of_other {s s1 : kernel} {e : event} {t : Tid} (hs : step s e = some s1)
    (hne : event_thread e ≠ some t) : ∃ w, s1.pc_of t = unblock s.pc_of w t := by
  unfold step at hs
  split at hs
  · exact absurd hs (by simp)
  · cases e with
    | set_priority u p =>
      simp only [Option.some.injEq] at hs
      subst hs
      exact ⟨none, rfl⟩
    | call u c =>
      have hut : t ≠ u := fun h => hne (by rw [h]; rfl)
      simp only at hs
      split at hs
      · simp only [Option.some.injEq] at hs
        subst hs
        refine ⟨none, ?_⟩
        cases c
        · exact pc_of_lock_acquire_enter_other s false hut
        · exact pc_of_lock_try_acquire_enter_other s hut
        · exact pc_of_lock_release_enter_other s false hut
        · exact pc_of_cond_wait_enter_other s hut
        · exact pc_of_cond_signal_enter_other s false hut
        · exact Function.update_noteq hut _ _
      · exact absurd hs (by simp)
    | run u =>
      have hut : t ≠ u := fun h => hne (by rw [h]; rfl)
      simp only at hs
      split at hs <;>
        simp only [Option.some.injEq, reduceCtorEq] at hs <;> subst hs
      · exact ⟨none, pc_of_lock_acquire_down_other s _ hut⟩
      · exact ⟨none, pc_of_lock_acquire_set_other s hut⟩
      · exact ⟨none, pc_of_lock_try_acquire_set_other s hut⟩
      · exact ⟨_, pc_of_lock_release_up_other s _ hut⟩
      · exact ⟨none, pc_of_lock_release_enter_other s true hut⟩
      · exact ⟨none, pc_of_cond_wait_down_other s hut⟩
      · exact ⟨_, pc_of_cond_signal_up_other s _ _ hut⟩
      · exact ⟨none, pc_of_cond_broadcast_test_other s hut⟩

/-- A thread inside `cond_wait` leaves it only by the last section of the `lock_acquire`
of line 323. -/
theorem step_in_wait {s s1 : kernel} {e : event} {t : Tid} (hs : step s e = some s1)
    (hin : in_wait (s.pc_of t) = true) :
    in_wait (s1.pc_of t) = true ∨
      (e = .run t ∧ s.pc_of t = .acq_set true ∧ s1 = lock_acquire_set s t) := by
  by_cases hev : event_thread e = some t
  · unfold step at hs
    split at hs
    · exact absurd hs (by simp)
    · cases e with
      | set_priority u p => simp [event_thread] at hev
      | call u c =>
        simp only [event_thread, Option.some.injEq] at hev
        subst hev
        simp only at hs
        split at hs
        · rename_i hpc
          rw [hpc] at hin
          exact absurd hin (by simp [in_wait])
        · exact absurd hs (by simp)
      | run u =>
        simp only [event_thread, Option.some.injEq] at hev
        subst hev
        simp only at hs
        split at hs <;> rename_i hpc <;>
          simp only [Option.some.injEq, reduceCtorEq] at hs <;> subst hs <;>
          rw [hpc] at hin
        · rename_i w
          cases w
          · exact absurd hin (by simp [in_wait])
          · left
            unfold lock_acquire_down
            dsimp only
            rw [Function.update_same]
            split <;> rfl
        · rename_i w
          cases w
          · exact absurd hin (by simp [in_wait])
          · right; exact ⟨rfl, hpc, rfl⟩
        · exact absurd hin (by simp [in_wait])
        · rename_i w
          cases w
          · exact absurd hin (by simp [in_wait])
          · left
            unfold lock_release_up
            dsimp only
            rw [Function.update_same]
            rfl
        · left
          unfold lock_release_enter
          split
          · dsimp only
            rw [Function.update_same]
            rfl
          · show in_wait (s.pc_of u) = true
            rw [hpc]; rfl
        · left
          unfold cond_wait_down lock_acquire_enter
          dsimp only
          split
          · split
            · show in_wait (s.pc_of u) = true
              rw [hpc]; rfl
            · dsimp only [goto]
              rw [Function.update_same]; rfl
          · dsimp only [goto]
            rw [Function.update_same]; rfl
        · exact absurd hin (by simp [in_wait])
        · exact absurd hin (by simp [in_wait])
  · left
    obtain ⟨w, hw⟩ := step_pc_of_other hs hev
    rw [hw, in_wait_unblock]
    exact hin

/-- C5, re-validation law. In a reachable state, a step after which thread `t` is no longer
inside `cond_wait` is the last section of the `lock_acquire` of line 323, run by `t` itself:
after it `t` is idle, the holder is `t`, `lock_held_by_current_thread` is true for `t`, the
count of the lock's semaphore is 0 and the kernel has not panicked. -/
theorem cond_wait_returns_holding (s : kernel) (h : reachable s) (e : event) (s1 : kernel)
    (t : Tid) (hs : step s e = some s1) (hin : in_wait (s.pc_of t) = true)
    (hout : in_wait (s1.pc_of t) = false) :
    e = .run t ∧ s.pc_of t = .acq_set true ∧ s1.pc_of t = .idle ∧
      s1.lock.holder = some t ∧ lock_held_by_current_thread s1.lock t = true ∧
      s1.lock.semaphore.value = 0 ∧ s1.owns t = true ∧ s1.panicked = false := by
  rcases step_in_wait hs hin with h1 | ⟨he, hpc, hs1⟩
  · rw [h1] at hout; exact absurd hout (by simp)
  · have hinv := lock_inv_reachable h
    have hm : mid (s.pc_of t) = true := by rw [hpc]; rfl
    obtain ⟨hv, _, _⟩ := hinv.mid_excl t hm
    have hp : s.panicked = false := by
      unfold step at hs
      split at hs
      · exact absurd hs (by simp)
      · rename_i hp; simpa using hp
    subst hs1
    refine ⟨he, hpc, ?_, rfl, ?_, hv, ?_, hp⟩
    · show Function.update s.pc_of t pc.idle t = pc.idle
      rw [Function.update_same]
    · simp [lock_held_by_current_thread, lock_acquire_set]
    · show Function.update s.owns t true t = true
      rw [Function.update_same]

theorem reachable_run_events (s : kernel) (es : List event) (h : reachable s) :
    reachable (run_events s es) := by
  unfold run_events
  cases he : exec s es with
  | none => exact h
  | some s1 => exact reachable_exec es h he

theorem sema_up_value (priority : Tid → Int) (sema : semaphore) :
    (sema_up priority sema).1.value = uint_inc sema.value := by
  unfold sema_up
  split
  · rfl
  · split <;> rfl

theorem uint_inc_lt (v : Nat) : uint_inc v < UINT_RANGE :=
  Nat.mod_lt _ (by decide)

theorem uint_dec_of_pos (v : Nat) (h : v ≠ 0) : uint_dec v = v - 1 := by
  simp [uint_dec, h]

theorem sema_down_pass_value (priority : Tid → Int) (sema : semaphore) (t : Tid) :
    (sema_down_pass priority sema t).1.value = sema.value ∨
      (0 < sema.value ∧ (sema_down_pass priority sema t).1.value + 1 = sema.value) := by
  unfold sema_down_pass
  by_cases h : sema.value = 0
  · left; simp [h]
  · right
    simp only [h, if_false]
    rw [uint_dec_of_pos _ h]
    omega

theorem sema_try_down_value (sema : semaphore) :
    (sema_try_down sema).1.value = sema.value ∨
      (0 < sema.value ∧ (sema_try_down sema).1.value + 1 = sema.value) := by
  unfold sema_try_down
  by_cases h : sema.value = 0
  · left; simp [h]
  · right
    have hpos : sema.value > 0 := Nat.pos_of_ne_zero h
    rw [if_pos hpos]
    refine ⟨hpos, ?_⟩
    show uint_dec sema.value + 1 = sema.value
    rw [uint_dec_of_pos _ h]
    omega

theorem sema_step_value_lt {s s1 : sema_sys} {e : sema_event} (h : s.sema.value < UINT_RANGE)
    (he : sema_step s e = some s1) : s1.sema.value < UINT_RANGE := by
  cases e with
  | set_priority t p =>
    simp only [sema_step, Option.some.injEq] at he
    subst he; exact h
  | resume t =>
    simp only [sema_step] at he
    split at he
    · simp only [Option.some.injEq] at he
      subst he
      rcases sema_down_pass_value s.priority s.sema t with h1 | h1
      · show (sema_down_pass s.priority s.sema t).1.value < _
        rw [h1]; exact h
      · show (sema_down_pass s.priority s.sema t).1.value < _
        omega
    · exact absurd he (by simp)
  | call t c =>
    cases c with
    | down =>
      simp only [sema_step] at he
      split at he
      · simp only [Option.some.injEq] at he
        subst he
        rcases sema_down_pass_value s.priority s.sema t with h1 | h1
        · show (sema_down_pass s.priority s.sema t).1.value < _
          rw [h1]; exact h
        · show (sema_down_pass s.priority s.sema t).1.value < _
          omega
      · exact absurd he (by simp)
    | try_down =>
      simp only [sema_step] at he
      split at he
      · simp only [Option.some.injEq] at he
        subst he
        rcases sema_try_down_value s.sema with h1 | h1
        · show (sema_try_down s.sema).1.value < _
          rw [h1]; exact h
        · show (sema_try_down s.sema).1.value < _
          omega
      · exact absurd he (by simp)
    | up =>
      simp only [sema_step] at he
      split at he
      · simp only [Option.some.injEq] at he
        subst he
        show (sema_up s.priority s.sema).1.value < _
        rw [sema_up_value]
        exact uint_inc_lt _
      · exact absurd he (by simp)

theorem sema_exec_value_lt {s s1 : sema_sys} (es : List sema_event)
    (h : s.sema.value < UINT_RANGE) (he : sema_exec s es = some s1) :
    s1.sema.value < UINT_RANGE := by
  induction es generalizing s with
  | nil =>
    simp only [sema_exec, Option.some.injEq] at he
    subst he; exact h
  | cons e es ih =>
    simp only [sema_exec] at he
    split at he
    · exact absurd he (by simp)
    · rename_i s2 hs2
      exact ih (sema_step_value_lt h hs2) he

/-- C2, non-negativity. After `sema_init (v)` and any sequence of events on the semaphore,
the count is an `unsigned` value, and a further step either is a `sema_up`, which increments,
or leaves the count as it is, or decrements a count that is strictly positive to exactly one
less: the decrement never wraps around below 0. -/
theorem sema_value_never_wraps_down (v : Nat) (priority : Tid → Int) (es : List sema_event)
    (s : sema_sys) (hs : sema_exec (sema_boot v priority) es = some s)
    (e : sema_event) (s1 : sema_sys) (he : sema_step s e = some s1) :
    s.sema.value < UINT_RANGE ∧ s1.sema.value < UINT_RANGE ∧
    (is_up e = true → s1.sema.value = uint_inc s.sema.value) ∧
    (is_up e = false → s1.sema.value = s.sema.value ∨
      (0 < s.sema.value ∧ s1.sema.value + 1 = s.sema.value)) := by
  have h0 : (sema_boot v priority).sema.value < UINT_RANGE := Nat.mod_lt _ (by decide)
  have h1 := sema_exec_value_lt es h0 hs
  refine ⟨h1, sema_step_value_lt h1 he, ?_, ?_⟩
  · intro hup
    cases e with
    | set_priority t p => exact absurd hup (by simp [is_up])
    | resume t => exact absurd hup (by simp [is_up])
    | call t c =>
      cases c with
      | down => exact absurd hup (by simp [is_up])
      | try_down => exact absurd hup (by simp [is_up])
      | up =>
        simp only [sema_step] at he
        split at he
        · simp only [Option.some.injEq] at he
          subst he
          exact sema_up_value s.priority s.sema
        · exact absurd he (by simp)
  · intro hup
    cases e with
    | set_priority t p =>
      simp only [sema_step, Option.some.injEq] at he
      subst he; exact Or.inl rfl
    | resume t =>
      simp only [sema_step] at he
      split at he
      · simp only [Option.some.injEq] at he
        subst he
        exact sema_down_pass_value s.priority s.sema t
      · exact absurd he (by simp)
    | call t c =>
      cases c with
      | down =>
        simp only [sema_step] at he
        split at he
        · simp only [Option.some.injEq] at he
          subst he
          exact sema_down_pass_value s.priority s.sema t
        · exact absurd he (by simp)
      | try_down =>
        simp only [sema_step] at he
        split at he
        · simp only [Option.some.injEq] at he
          subst he
          exact sema_try_down_value s.sema
        · exact absurd he (by simp)
      | up => exact absurd hup (by simp [is_up])

/-- C3, priority-ordered wake. Whatever the order of a non-empty waiters list and whatever
the current priorities, `sema_up` hands exactly one waiter `t` to `thread_unblock`; the
priority of `t` is at least that of every waiter left, and the waiters left are the old ones
minus `t`. -/
theorem sema_up_wakes_highest_priority (priority : Tid → Int) (sema : semaphore)
    (h : sema.waiters ≠ []) :
    ∃ t rest, sema_up priority sema
        = ({ value := uint_inc sema.value, waiters := rest }, some t) ∧
      (∀ u ∈ rest, priority t ≥ priority u) ∧
      (t :: rest).Perm sema.waiters := by
  have hperm := list_sort_perm (thread_compare_priority priority) sema.waiters
  have hsorted := list_sort_sorted priority sema.waiters
  have hemp : sema.waiters.isEmpty = false := by
    cases hw : sema.waiters with
    | nil => exact absurd hw h
    | cons a l => rfl
  unfold sema_up
  simp only [hemp, Bool.false_eq_true, if_false]
  cases hsort : list_sort (thread_compare_priority priority) sema.waiters with
  | nil =>
    rw [hsort] at hperm
    exact absurd hperm.symm.eq_nil h
  | cons t rest =>
    refine ⟨t, rest, rfl, ?_, ?_⟩
    · have hs2 : (t :: rest).Pairwise (fun a b => priority a ≥ priority b) := by
        have := hsorted
        unfold thread_compare_priority at hsort
        rw [hsort] at this
        exact this
      exact (List.pairwise_cons.1 hs2).1
    · rw [← hsort]; exact hperm

/-- C4, contract violations abort. When the holder is `t`, the assertions of `lock_acquire`
and `lock_try_acquire` called by `t` fail; when the holder is not `t` (also when it is NULL),
the assertion of `lock_release` called by `t` fails. The panic leaves the lock (holder, count
and waiters) as it was. The same is stated for the calls as steps of the kernel. -/
theorem lock_contract_violation_aborts (s : kernel) (t : Tid) :
    (s.lock.holder = some t →
      (∀ w, lock_acquire_enter s t w = panic s) ∧ lock_try_acquire_enter s t = panic s) ∧
    (s.lock.holder ≠ some t → ∀ w, lock_release_enter s t w = panic s) ∧
    ((panic s).panicked = true ∧ (panic s).lock = s.lock) ∧
    (s.panicked = false → s.pc_of t = .idle →
      (s.lock.holder = some t →
        step s (.call t .lock_acquire) = some (panic s) ∧
        step s (.call t .lock_try_acquire) = some (panic s)) ∧
      (s.lock.holder ≠ some t → step s (.call t .lock_release) = some (panic s))) := by
  refine ⟨?_, ?_, ⟨rfl, rfl⟩, ?_⟩
  · intro h
    constructor
    · intro w; simp [lock_acquire_enter, lock_held_by_current_thread, h]
    · simp [lock_try_acquire_enter, lock_held_by_current_thread, h]
  · intro h w
    simp [lock_release_enter, lock_held_by_current_thread, h]
  · intro hp hidle
    constructor
    · intro h
      simp [step, hp, hidle, lock_acquire_enter, lock_try_acquire_enter,
        lock_held_by_current_thread, h]
    · intro h
      simp [step, hp, hidle, lock_release_enter, lock_held_by_current_thread, h]

/-! ## Condition variables: `cond_signal` and `cond_broadcast` run without interruption -/

theorem list_sort_ne_nil {α : Type} (less : α → α → Bool) (l : List α) (h : l ≠ []) :
    ∃ c rest, list_sort less l = c :: rest ∧ (c :: rest).Perm l := by
  have hperm := list_sort_perm less l
  cases hsort : list_sort less l with
  | nil =>
    rw [hsort] at hperm
    exact absurd hperm.symm.eq_nil h
  | cons c rest => exact ⟨c, rest, rfl, hsort ▸ hperm⟩

theorem isEmpty_eq_false_of_ne_nil {α : Type} (l : List α) (h : l ≠ []) :
    l.isEmpty = false := by
  cases l with
  | nil => exact absurd rfl h
  | cons a l => rfl

/-- The state in which `cond_signal`, called by the holder with a waiter queued, has popped
the front cell `c` of the sorted list. -/
theorem cond_signal_enter_eq (s : kernel) (t : Tid) (b : Bool) (c : Tid) (rest : List Tid)
    (hheld : s.lock.holder = some t)
    (hsort : list_sort (sema_compare_priority s.priority s.stale s.cell) s.cond.waiters
      = c :: rest) :
    cond_signal_enter s t b
      = { s with cond := { waiters := rest },
                 pc_of := Function.update s.pc_of t (.sig_up c b) } := by
  have hne : s.cond.waiters ≠ [] := by
    intro h
    rw [h] at hsort
    exact absurd hsort (by simp [list_sort])
  unfold cond_signal_enter
  simp only [lock_held_by_current_thread, hheld, decide_True, if_true,
    isEmpty_eq_false_of_ne_nil _ hne, Bool.false_eq_true, if_false, hsort]

/-- The function `cond_signal` called by the holder with a waiter queued: the front cell of
the sorted list is popped and `sema_up` runs on its semaphore. -/
theorem cond_signal_eq (s : kernel) (t : Tid) (c : Tid) (rest : List Tid)
    (hp : s.panicked = false) (hidle : s.pc_of t = .idle) (hheld : s.lock.holder = some t)
    (hsort : list_sort (sema_compare_priority s.priority s.stale s.cell) s.cond.waiters
      = c :: rest) :
    cond_signal s t
      = some (cond_signal_up
          { s with cond := { waiters := rest },
                   pc_of := Function.update s.pc_of t (.sig_up c false) } t c false) := by
  have h1 : step s (.call t .cond_signal) = some (cond_signal_enter s t false) := by
    simp [step, hp, hidle]
  unfold cond_signal
  rw [h1, cond_signal_enter_eq s t false c rest hheld hsort]
  simp [run_alone, at_rest, step, hp, cond_signal_up]

theorem unblock_update_other (pc_of : Tid → pc) (t : Tid) (p : pc) (w : Option Tid)
    (u : Tid) (h : u ≠ t) :
    unblock (Function.update pc_of t p) w u = unblock pc_of w u := by
  cases w with
  | none => exact Function.update_noteq h _ _
  | some v =>
    simp only [unblock]
    by_cases huv : u = v
    · subst huv
      rw [Function.update_same, Function.update_same, Function.update_noteq h]
    · rw [Function.update_noteq huv, Function.update_noteq huv, Function.update_noteq h]

theorem unblock_of_ne (pc_of : Tid → pc) (w : Option Tid) (u : Tid)
    (h : w ≠ some u) : unblock pc_of w u = pc_of u := by
  cases w with
  | none => rfl
  | some v =>
    have huv : u ≠ v := fun e => h (by rw [e])
    simp only [unblock]
    exact Function.update_noteq huv _ _

theorem sema_up_woken_mem (priority : Tid → Int) (sema : semaphore) (v : Tid)
    (h : (sema_up priority sema).2 = some v) : v ∈ sema.waiters := by
  unfold sema_up at h
  split at h
  · exact absurd h (by simp)
  · split at h
    · exact absurd h (by simp)
    · rename_i t rest hsort
      simp only [Option.some.injEq] at h
      subst h
      have hperm := list_sort_perm (thread_compare_priority priority) sema.waiters
      rw [hsort] at hperm
      exact hperm.subset (List.mem_cons_self _ _)

/-- C6, single wake. Called by the lock holder on a condition variable with at least one
queued cell, `cond_signal` returns; it has removed exactly one cell `c` from the queue (the
others are left, so one fewer), has run `sema_up` once, on the private semaphore of `c` and
on no other semaphore, and has left the private semaphore of every other cell and the lock
as they were. A thread other than the caller that is not queued on the semaphore of `c` stays
where it was: a thread blocked on another cell stays blocked. -/
theorem cond_signal_single_wake (s : kernel) (t : Tid) (hp : s.panicked = false)
    (hidle : s.pc_of t = .idle) (hheld : s.lock.holder = some t)
    (hne : s.cond.waiters ≠ []) :
    ∃ c rest s1, cond_signal s t = some s1 ∧
      s1.cond.waiters = rest ∧ (c :: rest).Perm s.cond.waiters ∧
      s1.cond.waiters.length + 1 = s.cond.waiters.length ∧
      s1.signalled = s.signalled ++ [c] ∧
      s1.cell c = (sema_up s.priority (s.cell c)).1 ∧ s1.ups c = s.ups c + 1 ∧
      (∀ d, d ≠ c → s1.cell d = s.cell d ∧ s1.ups d = s.ups d) ∧
      s1.lock = s.lock ∧ s1.panicked = false ∧ s1.pc_of t = .idle ∧
      (∀ u, u ≠ t → s1.pc_of u = unblock s.pc_of (sema_up s.priority (s.cell c)).2 u) ∧
      (∀ u, u ≠ t → u ∉ (s.cell c).waiters → s1.pc_of u = s.pc_of u) := by
  obtain ⟨c, rest, hsort, hperm⟩ :=
    list_sort_ne_nil (sema_compare_priority s.priority s.stale s.cell) s.cond.waiters hne
  refine ⟨c, rest, _, cond_signal_eq s t c rest hp hidle hheld hsort, rfl, hperm, ?_, rfl,
    ?_, ?_, ?_, rfl, hp, ?_, ?_, ?_⟩
  · have := hperm.length_eq
    simp only [List.length_cons] at this
    exact this
  · simp [cond_signal_up]
  · simp [cond_signal_up]
  · intro d hd
    simp [cond_signal_up, Function.update_noteq hd]
  · simp [cond_signal_up]
  · intro u hu
    simp only [cond_signal_up]
    rw [Function.update_noteq hu]
    exact unblock_update_other s.pc_of t _ _ u hu
  · intro u hu hmem
    simp only [cond_signal_up]
    rw [Function.update_noteq hu, unblock_update_other s.pc_of t _ _ u hu]
    refine unblock_of_ne _ _ _ ?_
    intro hw
    exact hmem (sema_up_woken_mem _ _ _ hw)

/-- The front cell of the sorted queue has the greatest key, where the key of a cell is what
`sema_compare_priority` reads for it. -/
theorem cond_sort_front_max (s : kernel) (c : Tid) (rest : List Tid)
    (hsort : list_sort (sema_compare_priority s.priority s.stale s.cell) s.cond.waiters
      = c :: rest) :
    ∀ d ∈ rest, front_priority s.priority (s.stale c) (s.cell c)
      ≥ front_priority s.priority (s.stale d) (s.cell d) := by
  have hsorted := list_sort_sorted
    (fun d => front_priority s.priority (s.stale d) (s.cell d)) s.cond.waiters
  have hs2 : (c :: rest).Pairwise (fun a b =>
      front_priority s.priority (s.stale a) (s.cell a)
        ≥ front_priority s.priority (s.stale b) (s.cell b)) := by
    unfold sema_compare_priority at hsort
    rw [hsort] at hsorted
    exact hsorted
  exact (List.pairwise_cons.1 hs2).1

theorem front_priority_of_single (priority : Tid → Int) (stale : Int) (sema : semaphore)
    (u : Tid) (h : sema.waiters = [u]) : front_priority priority stale sema = priority u := by
  unfold front_priority
  rw [h]

/-- C7, the highest-priority waiter is signalled. When every queued cell has exactly one
thread (`owner c`) blocked on its private semaphore, then, in whatever order the cells are
stored, the cell that `cond_signal` removes and signals is one whose blocked thread has a
current priority at least that of the blocked thread of every cell left in the queue. -/
theorem cond_signal_picks_highest (s : kernel) (t : Tid) (owner : Tid → Tid)
    (hp : s.panicked = false) (hidle : s.pc_of t = .idle) (hheld : s.lock.holder = some t)
    (hne : s.cond.waiters ≠ [])
    (hone : ∀ c ∈ s.cond.waiters, (s.cell c).waiters = [owner c]) :
    ∃ c rest s1, cond_signal s t = some s1 ∧
      s1.cond.waiters = rest ∧ (c :: rest).Perm s.cond.waiters ∧
      s1.signalled = s.signalled ++ [c] ∧
      (sema_up s.priority (s.cell c)).2 = some (owner c) ∧
      ∀ d ∈ rest, s.priority (owner c) ≥ s.priority (owner d) := by
  obtain ⟨c, rest, hsort, hperm⟩ :=
    list_sort_ne_nil (sema_compare_priority s.priority s.stale s.cell) s.cond.waiters hne
  have hc : (s.cell c).waiters = [owner c] := hone c (hperm.subset (List.mem_cons_self _ _))
  refine ⟨c, rest, _, cond_signal_eq s t c rest hp hidle hheld hsort, rfl, hperm, rfl, ?_, ?_⟩
  · simp [sema_up, hc, list_sort, list_insert_ordered]
  · intro d hd
    have hd2 : (s.cell d).waiters = [owner d] :=
      hone d (hperm.subset (List.mem_cons_of_mem _ hd))
    have := cond_sort_front_max s c rest hsort d hd
    rw [front_priority_of_single _ _ _ _ hc, front_priority_of_single _ _ _ _ hd2] at this
    exact this

theorem run_alone_at_rest (n : Nat) (s : kernel) (t : Tid) (h : at_rest s t = true) :
    run_alone n s t = some s := by
  cases n <;> simp [run_alone, h]

theorem run_alone_succ (n : Nat) (s s1 : kernel) (t : Tid) (h : at_rest s t = false)
    (hs : step s (.run t) = some s1) : run_alone (n + 1) s t = run_alone n s1 t := by
  simp [run_alone, h, hs]

theorem sema_up_single (priority : Tid → Int) (sema : semaphore) (u : Tid)
    (h : sema.waiters = [u]) :
    sema_up priority sema = ({ value := uint_inc sema.value, waiters := [] }, some u) := by
  simp [sema_up, h, list_sort, list_insert_ordered]

/-- The loop of `cond_broadcast`, entered by the holder `t` at the test of line 363, when every
queued cell has exactly one blocked thread and no cell is queued twice. -/
theorem cond_broadcast_loop (owner : Tid → Tid) (n : Nat) :
    ∀ (s : kernel) (t : Tid) (fuel : Nat),
      s.cond.waiters.length = n → s.panicked = false → s.pc_of t = .bc_test →
      s.lock.holder = some t → s.cond.waiters.Nodup →
      (∀ c ∈ s.cond.waiters, (s.cell c).waiters = [owner c]) →
      2 * n + 1 ≤ fuel →
      ∃ s1 woken, run_alone fuel s t = some s1 ∧
        s1.cond.waiters = [] ∧ s1.signalled = s.signalled ++ woken ∧
        woken.Perm s.cond.waiters ∧
        woken.Pairwise (fun a b => s.priority (owner a) ≥ s.priority (owner b)) ∧
        (∀ c ∈ s.cond.waiters, s1.cell c = (sema_up s.priority (s.cell c)).1 ∧
          s1.ups c = s.ups c + 1) ∧
        (∀ c, c ∉ s.cond.waiters → s1.cell c = s.cell c ∧ s1.ups c = s.ups c) ∧
        s1.pc_of t = .idle ∧ s1.panicked = false ∧ s1.lock = s.lock ∧
        s1.priority = s.priority := by
  induction n with
  | zero =>
    intro s t fuel hlen hp hpc hheld _ _ hfuel
    have hnil : s.cond.waiters = [] := List.length_eq_zero.1 hlen
    obtain ⟨f, rfl⟩ : ∃ f, fuel = f + 1 := ⟨fuel - 1, by omega⟩
    have hrest : at_rest s t = false := by simp [at_rest, hp, hpc]
    have hstep : step s (.run t) = some (goto s t .idle) := by
      simp [step, hp, hpc, cond_broadcast_test, hnil]
    refine ⟨goto s t .idle, [], ?_, hnil, by simp [goto], by rw [hnil], List.Pairwise.nil,
      ?_, fun c _ => ⟨rfl, rfl⟩, by simp [goto], hp, rfl, rfl⟩
    · rw [run_alone_succ f s _ t hrest hstep]
      exact run_alone_at_rest f _ t (by simp [at_rest, goto])
    · intro c hc
      rw [hnil] at hc
      exact absurd hc (List.not_mem_nil c)
  | succ n ih =>
    intro s t fuel hlen hp hpc hheld hnodup hone hfuel
    have hne : s.cond.waiters ≠ [] := by
      intro h
      rw [h] at hlen
      exact absurd hlen (by simp)
    obtain ⟨c, rest, hsort, hperm⟩ :=
      list_sort_ne_nil (sema_compare_priority s.priority s.stale s.cell) s.cond.waiters hne
    obtain ⟨f, rfl⟩ : ∃ f, fuel = f + 2 := ⟨fuel - 2, by omega⟩
    have hnd : (c :: rest).Nodup := hperm.nodup_iff.2 hnodup
    have hcrest : c ∉ rest := (List.nodup_cons.1 hnd).1
    have hcmem : c ∈ s.cond.waiters := hperm.subset (List.mem_cons_self _ _)
    have hrestmem : ∀ d ∈ rest, d ∈ s.cond.waiters :=
      fun d hd => hperm.subset (List.mem_cons_of_mem _ hd)
    have hrest1 : at_rest s t = false := by simp [at_rest, hp, hpc]
    have hstep1 : step s (.run t) = some (cond_signal_enter s t true) := by
      simp [step, hp, hpc, cond_broadcast_test, isEmpty_eq_false_of_ne_nil _ hne]
    rw [cond_signal_enter_eq s t true c rest hheld hsort] at hstep1
    have hrest2 : at_rest
        { s with cond := { waiters := rest },
                 pc_of := Function.update s.pc_of t (.sig_up c true) } t = false := by
      simp [at_rest, hp]
    have hstep2 : step
        { s with cond := { waiters := rest },
                 pc_of := Function.update s.pc_of t (.sig_up c true) } (.run t)
        = some (cond_signal_up
            { s with cond := { waiters := rest },
                     pc_of := Function.update s.pc_of t (.sig_up c true) } t c true) := by
      simp [step, hp]
    have hlen2 : rest.length = n := by
      have := hperm.length_eq
      simp only [List.length_cons] at this
      omega
    obtain ⟨s1, woken, hrun, hw, hsig, hwperm, hwsorted, hcells, hother, hpc1, hp1, hlock1,
        hprio1⟩ :=
      ih (cond_signal_up
            { s with cond := { waiters := rest },
                     pc_of := Function.update s.pc_of t (.sig_up c true) } t c true)
        t f hlen2 hp (by simp [cond_signal_up]) hheld (List.nodup_cons.1 hnd).2
        (by
          intro d hd
          have hdc : d ≠ c := fun e => hcrest (e ▸ hd)
          show (Function.update s.cell c _ d).waiters = [owner d]
          rw [Function.update_noteq hdc]
          exact hone d (hrestmem d hd))
        (by omega)
    refine ⟨s1, c :: woken, ?_, hw, ?_, ?_, ?_, ?_, ?_, hpc1, hp1, hlock1, hprio1⟩
    · rw [run_alone_succ (f + 1) s _ t hrest1 hstep1, run_alone_succ f _ _ t hrest2 hstep2]
      exact hrun
    · rw [hsig]
      simp [cond_signal_up]
    · exact (List.Perm.cons c hwperm).trans hperm
    · refine List.pairwise_cons.2 ⟨?_, hwsorted⟩
      intro d hd
      have hdrest : d ∈ rest := hwperm.subset hd
      have := cond_sort_front_max s c rest hsort d hdrest
      rw [front_priority_of_single _ _ _ _ (hone c hcmem),
        front_priority_of_single _ _ _ _ (hone d (hrestmem d hdrest))] at this
      exact this
    · intro d hd
      rcases List.mem_cons.1 (hperm.symm.subset hd) with hdc | hdrest
      · subst hdc
        obtain ⟨h1, h2⟩ := hother d hcrest
        rw [h1, h2]
        simp [cond_signal_up]
      · have hdc : d ≠ c := fun e => hcrest (e ▸ hdrest)
        obtain ⟨h1, h2⟩ := hcells d hdrest
        rw [h1, h2]
        simp [cond_signal_up, Function.update_noteq hdc]
    · intro d hd
      have hdc : d ≠ c := fun e => hd (e ▸ hcmem)
      have hdrest : d ∉ rest := fun h => hd (hrestmem d h)
      obtain ⟨h1, h2⟩ := hother d hdrest
      rw [h1, h2]
      simp [cond_signal_up, Function.update_noteq hdc]

/-- C8, broadcast completeness. Called by the lock holder `t` on a condition variable with N
queued cells, each with one blocked thread (`owner c`) and none queued twice,
`cond_broadcast` terminates (fuel for 2 N + 1 sections is enough); it has called
`cond_signal` exactly N times, the queue is empty, `sema_up` has run exactly once on each of
the N private semaphores (which are left with count one more and no waiter) and on no other,
and the cells were signalled in non-increasing order of the priorities of their blocked
threads. -/
theorem cond_broadcast_complete (s : kernel) (t : Tid) (owner : Tid → Tid) (fuel : Nat)
    (hp : s.panicked = false) (hidle : s.pc_of t = .idle) (hheld : s.lock.holder = some t)
    (hnodup : s.cond.waiters.Nodup)
    (hone : ∀ c ∈ s.cond.waiters, (s.cell c).waiters = [owner c])
    (hfuel : 2 * s.cond.waiters.length + 1 ≤ fuel) :
    ∃ s1 woken, cond_broadcast fuel s t = some s1 ∧
      s1.cond.waiters = [] ∧ s1.signalled = s.signalled ++ woken ∧
      woken.length = s.cond.waiters.length ∧ woken.Perm s.cond.waiters ∧
      woken.Pairwise (fun a b => s.priority (owner a) ≥ s.priority (owner b)) ∧
      (∀ c ∈ s.cond.waiters, woken.count c = 1 ∧ s1.ups c = s.ups c + 1 ∧
        s1.cell c = { value := uint_inc (s.cell c).value, waiters := [] }) ∧
      (∀ c, c ∉ s.cond.waiters → woken.count c = 0 ∧ s1.ups c = s.ups c ∧
        s1.cell c = s.cell c) ∧
      s1.pc_of t = .idle ∧ s1.panicked = false ∧ s1.lock = s.lock := by
  have hstep : step s (.call t .cond_broadcast) = some (goto s t .bc_test) := by
    simp [step, hp, hidle]
  obtain ⟨s1, woken, hrun, hw, hsig, hwperm, hwsorted, hcells, hother, hpc1, hp1, hlock1, _⟩ :=
    cond_broadcast_loop owner s.cond.waiters.length (goto s t .bc_test) t fuel rfl hp
      (by simp [goto]) hheld hnodup hone hfuel
  refine ⟨s1, woken, ?_, hw, hsig, hwperm.length_eq, hwperm, hwsorted, ?_, ?_, hpc1, hp1,
    hlock1⟩
  · unfold cond_broadcast
    rw [hstep]
    exact hrun
  · intro c hc
    obtain ⟨h1, h2⟩ := hcells c hc
    refine ⟨?_, h2, ?_⟩
    · rw [hwperm.count_eq]
      exact List.count_eq_one_of_mem hnodup hc
    · rw [h1]
      show (sema_up s.priority (s.cell c)).1 = _
      rw [sema_up_single _ _ _ (hone c hc)]
  · intro c hc
    obtain ⟨h1, h2⟩ := hother c hc
    refine ⟨?_, h2, h1⟩
    rw [hwperm.count_eq]
    exact List.count_eq_zero_of_not_mem hc

/-- The queue after lines 312-320 of `cond_wait`: the new cell is compared through the
stale word of its own, still empty, waiters list. -/
theorem cond_wait_enter_waiters (s : kernel) (t : Tid) (hheld : s.lock.holder = some t) :
    (cond_wait_enter s t).cond.waiters
      = list_insert_ordered
          (sema_compare_priority s.priority s.stale (Function.update s.cell t (sema_init 0)))
          t s.cond.waiters ∧
      front_priority s.priority (s.stale t) (Function.update s.cell t (sema_init 0) t)
        = s.stale t := by
  constructor
  · simp [cond_wait_enter, lock_held_by_current_thread, hheld]
  · simp [front_priority, sema_init]

/-- C9, failing input. Thread 1, of priority 5, is blocked in `cond_wait`, its cell is the
only one queued; thread 2, of priority 10, holds the lock and calls `cond_wait`. The new
cell is put behind the cell of thread 1, although thread 1 has the lower priority: the
comparator reads the stale word (here 0) of the new cell, whose waiters list is still empty,
not the priority of thread 2. Whatever the stale word `j` and the priority `p` of thread 2
are, the place of the new cell depends on `j` alone. -/
theorem cond_wait_insert_not_by_priority :
    reachable demo_one_waiting ∧
      demo_one_waiting.cond.waiters = [1] ∧ (demo_one_waiting.cell 1).waiters = [1] ∧
      demo_one_waiting.pc_of 1 = .wait_blocked ∧
      demo_one_waiting.priority 1 = 5 ∧ demo_one_waiting.priority 2 = 10 ∧
      demo_one_waiting.lock.holder = some 2 ∧ demo_one_waiting.pc_of 2 = .idle ∧
      (step demo_one_waiting (.call 2 .cond_wait)).map (fun s => s.cond.waiters)
        = some [1, 2] ∧
      (∀ j p : Int,
        (cond_wait_enter
          { demo_one_waiting with
              priority := Function.update demo_one_waiting.priority 2 p,
              stale := fun _ => j } 2).cond.waiters
          = if j > 5 then [2, 1] else [1, 2]) := by
  refine ⟨reachable_run_events _ _ (reachable.boot _ _), by decide, by decide, by decide,
    by decide, by decide, by decide, by decide, by decide, ?_⟩
  intro j p
  have h1 : demo_one_waiting.lock.holder = some 2 := by decide
  have h2 : demo_one_waiting.cond.waiters = [1] := by decide
  have h3 : (demo_one_waiting.cell 1).waiters = [1] := by decide
  have h4 : demo_one_waiting.priority 1 = 5 := by decide
  by_cases hj : j > 5
  · simp [cond_wait_enter, lock_held_by_current_thread, h1, h2, list_insert_ordered,
      sema_compare_priority, front_priority, sema_init, h3, h4, hj]
  · simp [cond_wait_enter, lock_held_by_current_thread, h1, h2, list_insert_ordered,
      sema_compare_priority, front_priority, sema_init, h3, h4, hj]

/-- C10 fails as stated: thread 1 does not hold the lock and nobody waits; its call of
`cond_broadcast` returns, the kernel has not panicked. -/
theorem cond_broadcast_without_lock_returns :
    lock_held_by_current_thread demo_boot.lock 1 = false ∧ demo_boot.cond.waiters = [] ∧
      demo_boot.pc_of 1 = .idle ∧ demo_boot.panicked = false ∧
      (cond_broadcast 1 demo_boot 1).map (fun s => (s.panicked, s.pc_of 1))
        = some (false, .idle) := by
  decide

/-- C10, amended. A `cond_broadcast` call by a thread that does not hold the lock panics
when some cell is queued: the assertion is the one of the `cond_signal` it calls, and nothing
of the lock, the queue or the cells has been changed. With no cell queued it returns without
a panic and changes nothing. `cond_signal` and `cond_wait` called without the lock panic in
every case. -/
theorem cond_broadcast_without_lock (s : kernel) (t : Tid) (fuel : Nat)
    (hp : s.panicked = false) (hidle : s.pc_of t = .idle)
    (hnot : s.lock.holder ≠ some t) (hfuel : 1 ≤ fuel) :
    (s.cond.waiters ≠ [] →
      ∃ s1, cond_broadcast fuel s t = some s1 ∧ s1.panicked = true ∧
        s1.lock = s.lock ∧ s1.cond = s.cond ∧ s1.cell = s.cell ∧
        s1.signalled = s.signalled) ∧
    (s.cond.waiters = [] →
      ∃ s1, cond_broadcast fuel s t = some s1 ∧ s1.panicked = false ∧
        s1.pc_of t = .idle ∧ s1.lock = s.lock ∧ s1.cond = s.cond ∧ s1.cell = s.cell ∧
        s1.signalled = s.signalled) ∧
    step s (.call t .cond_signal) = some (panic s) ∧
    step s (.call t .cond_wait) = some (panic s) := by
  obtain ⟨f, rfl⟩ : ∃ f, fuel = f + 1 := ⟨fuel - 1, by omega⟩
  have hstep : step s (.call t .cond_broadcast) = some (goto s t .bc_test) := by
    simp [step, hp, hidle]
  have hrest : at_rest (goto s t .bc_test) t = false := by simp [at_rest, goto, hp]
  refine ⟨?_, ?_, ?_, ?_⟩
  · intro hne
    have hstep2 : step (goto s t .bc_test) (.run t) = some (panic (goto s t .bc_test)) := by
      simp [step, goto, hp, cond_broadcast_test, isEmpty_eq_false_of_ne_nil _ hne,
        cond_signal_enter, lock_held_by_current_thread, hnot, panic]
    refine ⟨panic (goto s t .bc_test), ?_, rfl, rfl, rfl, rfl, rfl⟩
    unfold cond_broadcast
    rw [hstep]
    show run_alone (f + 1) (goto s t .bc_test) t = _
    rw [run_alone_succ f _ _ t hrest hstep2]
    exact run_alone_at_rest f _ t (by simp [at_rest, panic])
  · intro hnil
    have hstep2 : step (goto s t .bc_test) (.run t)
        = some (goto (goto s t .bc_test) t .idle) := by
      simp [step, goto, hp, cond_broadcast_test, hnil]
    refine ⟨goto (goto s t .bc_test) t .idle, ?_, hp, by simp [goto], rfl, rfl, rfl, rfl⟩
    unfold cond_broadcast
    rw [hstep]
    show run_alone (f + 1) (goto s t .bc_test) t = _
    rw [run_alone_succ f _ _ t hrest hstep2]
    exact run_alone_at_rest f _ t (by simp [at_rest, goto])
  · simp [step, hp, hidle, cond_signal_enter, lock_held_by_current_thread, hnot]
  · simp [step, hp, hidle, cond_wait_enter, lock_held_by_current_thread, hnot]

/-! ## More on the single functions -/

/-- C11, `sema_try_down`. It returns true exactly when the count was greater than 0; then
the new count is the old one minus 1; when it returns false the semaphore is unchanged; in
both cases the waiters list is unchanged, and as a step of the semaphore system the call
changes the semaphore only: no thread is blocked or queued. -/
theorem sema_try_down_spec (sema : semaphore) :
    ((sema_try_down sema).2 = true ↔ sema.value > 0) ∧
    ((sema_try_down sema).2 = true →
      (sema_try_down sema).1.value + 1 = sema.value ∧
      (sema_try_down sema).1.value = sema.value - 1) ∧
    ((sema_try_down sema).2 = false → (sema_try_down sema).1 = sema) ∧
    (sema_try_down sema).1.waiters = sema.waiters ∧
    (∀ (s : sema_sys) (t : Tid), s.pc_of t = .outside →
      sema_step s (.call t .try_down) = some { s with sema := (sema_try_down s.sema).1 }) := by
  refine ⟨?_, ?_, ?_, ?_, ?_⟩
  · unfold sema_try_down
    by_cases h : sema.value > 0
    · simp [h]
    · simp [h]
  · intro h
    unfold sema_try_down at h ⊢
    by_cases hv : sema.value > 0
    · rw [if_pos hv]
      have hne : sema.value ≠ 0 := Nat.pos_iff_ne_zero.1 hv
      show uint_dec sema.value + 1 = sema.value ∧ uint_dec sema.value = sema.value - 1
      rw [uint_dec_of_pos _ hne]
      omega
    · rw [if_neg hv] at h
      exact absurd h (by simp)
  · intro h
    unfold sema_try_down at h ⊢
    by_cases hv : sema.value > 0
    · rw [if_pos hv] at h
      exact absurd h (by simp)
    · rw [if_neg hv]
  · unfold sema_try_down
    split <;> rfl
  · intro s t h
    simp [sema_step, h]

/-- C12, `lock_try_acquire`. Called by an idle thread `t` that does not hold the lock, it
returns; it returns true exactly when the count of the lock's semaphore was greater than 0;
on true the holder is `t` and the count has dropped by 1; on false the lock (holder, count
and waiters) is unchanged. In both cases the waiters are unchanged, the caller is idle again
and no other thread has moved. -/
theorem lock_try_acquire_spec (s : kernel) (t : Tid) (hp : s.panicked = false)
    (hidle : s.pc_of t = .idle) (hnot : s.lock.holder ≠ some t) :
    ∃ s1 ok, lock_try_acquire s t = some (s1, ok) ∧
      (ok = true ↔ s.lock.semaphore.value > 0) ∧
      (ok = true → s1.lock.holder = some t ∧
        s1.lock.semaphore.value + 1 = s.lock.semaphore.value) ∧
      (ok = false → s1.lock = s.lock) ∧
      s1.lock.semaphore.waiters = s.lock.semaphore.waiters ∧
      s1.pc_of t = .idle ∧ (∀ u, u ≠ t → s1.pc_of u = s.pc_of u) ∧
      s1.panicked = false ∧ s1.cond = s.cond ∧ s1.cell = s.cell := by
  have hstep : step s (.call t .lock_try_acquire) = some (lock_try_acquire_enter s t) := by
    simp [step, hp, hidle]
  by_cases hv : s.lock.semaphore.value > 0
  · have hne : s.lock.semaphore.value ≠ 0 := Nat.pos_iff_ne_zero.1 hv
    have henter : lock_try_acquire_enter s t
        = { s with lock := { s.lock with semaphore :=
                      { s.lock.semaphore with value := uint_dec s.lock.semaphore.value } },
                   pc_of := Function.update s.pc_of t .try_set } := by
      simp [lock_try_acquire_enter, lock_held_by_current_thread, hnot, sema_try_down, hv]
    refine ⟨lock_try_acquire_set (lock_try_acquire_enter s t) t, true, ?_, by simp [hv], ?_, ?_,
      ?_, ?_, ?_, ?_, ?_, ?_⟩
    · unfold lock_try_acquire
      rw [hstep, henter]
      simp [hp, run_alone, at_rest, step, lock_try_acquire_set]
    · intro _
      rw [henter]
      refine ⟨rfl, ?_⟩
      show uint_dec s.lock.semaphore.value + 1 = s.lock.semaphore.value
      rw [uint_dec_of_pos _ hne]
      omega
    · intro h; exact absurd h (by simp)
    · rw [henter]; rfl
    · simp [lock_try_acquire_set]
    · intro u hu
      rw [henter]
      simp [lock_try_acquire_set, Function.update_noteq hu]
    · rw [henter]; exact hp
    · rw [henter]; rfl
    · rw [henter]; rfl
  · have henter : lock_try_acquire_enter s t
        = { s with pc_of := Function.update s.pc_of t .idle } := by
      simp [lock_try_acquire_enter, lock_held_by_current_thread, hnot, sema_try_down, hv]
    refine ⟨lock_try_acquire_enter s t, false, ?_, by simp [hv], ?_, ?_, ?_, ?_, ?_, ?_, ?_,
      ?_⟩
    · unfold lock_try_acquire
      rw [hstep, henter]
      simp [hp]
    · intro h; exact absurd h (by simp)
    · intro _; rw [henter]
    · rw [henter]
    · rw [henter]; simp
    · intro u hu
      rw [henter]
      simp [Function.update_noteq hu]
    · rw [henter]; exact hp
    · rw [henter]
    · rw [henter]

/-- C15, a signal with no waiters is lost. Called by the idle holder on a condition variable
with no queued cell, `cond_signal` and `cond_broadcast` return and leave the kernel exactly
as it was: the queue stays empty, the lock, every semaphore and every thread are unchanged,
and no `sema_up` has run. -/
theorem cond_signal_no_waiters (s : kernel) (t : Tid) (fuel : Nat) (hp : s.panicked = false)
    (hidle : s.pc_of t = .idle) (hheld : s.lock.holder = some t)
    (hnil : s.cond.waiters = []) (hfuel : 1 ≤ fuel) :
    cond_signal s t = some s ∧ cond_broadcast fuel s t = some s := by
  have hupd : Function.update s.pc_of t pc.idle = s.pc_of := by
    rw [← hidle]; exact Function.update_eq_self t s.pc_of
  have hgoto : goto s t .idle = s := by
    unfold goto; rw [hupd]
  have hrest : at_rest s t = true := by simp [at_rest, hidle]
  constructor
  · have hstep : step s (.call t .cond_signal) = some s := by
      simp [step, hp, hidle, cond_signal_enter, lock_held_by_current_thread, hheld, hnil]
      exact hgoto
    unfold cond_signal
    rw [hstep]
    exact run_alone_at_rest 1 s t hrest
  · obtain ⟨f, rfl⟩ : ∃ f, fuel = f + 1 := ⟨fuel - 1, by omega⟩
    have hstep : step s (.call t .cond_broadcast) = some (goto s t .bc_test) := by
      simp [step, hp, hidle]
    have hrest1 : at_rest (goto s t .bc_test) t = false := by simp [at_rest, goto, hp]
    have hpc : (goto s t .bc_test).pc_of t = .bc_test := by simp [goto]
    have hp1 : (goto s t .bc_test).panicked = false := hp
    have htest : cond_broadcast_test (goto s t .bc_test) t = s := by
      have hemp : (goto s t .bc_test).cond.waiters.isEmpty = true := by simp [goto, hnil]
      unfold cond_broadcast_test
      rw [if_pos hemp]
      unfold goto
      simp only [Function.update_idem]
      rw [hupd]
    have hstep2 : step (goto s t .bc_test) (.run t) = some s := by
      simp only [step, hp1, hpc, Bool.false_eq_true, if_false, htest]
    unfold cond_broadcast
    rw [hstep]
    show run_alone (f + 1) (goto s t .bc_test) t = _
    rw [run_alone_succ f _ _ t hrest1 hstep2]
    exact run_alone_at_rest f s t hrest

/-- C17, representation invariant of the lock. In every state the kernel can reach, the
count of the lock's semaphore is 0 or 1; whenever the holder is set the count is 0; the
count is 1 only when the holder is NULL. -/
theorem lock_representation_invariant (s : kernel) (h : reachable s) :
    (s.lock.semaphore.value = 0 ∨ s.lock.semaphore.value = 1) ∧
    (∀ t, s.lock.holder = some t → s.lock.semaphore.value = 0) ∧
    (s.lock.semaphore.value = 1 → s.lock.holder = none) := by
  have hinv := lock_inv_reachable h
  refine ⟨?_, fun t ht => (hinv.held_excl t ht).1, ?_⟩
  · have := hinv.value_le
    omega
  · intro hv
    exact (lock_inv_no_mid_of_pos hinv (by omega)).2.1

/-- C19, counter overflow. `sema_up` computes the count plus 1 modulo `2 ^ 32`: below
`2 ^ 32 - 1` the new count is the old one plus 1; at `2 ^ 32 - 1` the new count is 0, and a
`sema_try_down` that follows returns false. -/
theorem sema_up_overflow (priority : Tid → Int) (sema : semaphore) :
    (sema_up priority sema).1.value = (sema.value + 1) % 4294967296 ∧
    (sema.value < UINT_RANGE - 1 → (sema_up priority sema).1.value = sema.value + 1) ∧
    (sema.value = UINT_RANGE - 1 →
      (sema_up priority sema).1.value = 0 ∧
      (sema_try_down (sema_up priority sema).1).2 = false) := by
  have hval := sema_up_value priority sema
  refine ⟨hval, ?_, ?_⟩
  · intro h
    rw [hval]
    unfold uint_inc
    apply Nat.mod_eq_of_lt
    have : UINT_RANGE - 1 + 1 = UINT_RANGE := by decide
    omega
  · intro h
    have h0 : (sema_up priority sema).1.value = 0 := by
      rw [hval]
      unfold uint_inc
      rw [h]
      decide
    refine ⟨h0, ?_⟩
    unfold sema_try_down
    rw [h0]
    rfl


/-! ## A wake-up does not hand over the unit -/

theorem sema_unblock_woken (pc_of : Tid → sema_pc) (t : Tid) (h : pc_of t = .blocked) :
    sema_unblock pc_of (some t) t = .resumed := by
  simp [sema_unblock, h]

theorem sema_unblock_other (pc_of : Tid → sema_pc) (w : Option Tid) (u : Tid)
    (h : w ≠ some u) : sema_unblock pc_of w u = pc_of u := by
  cases w with
  | none => rfl
  | some v =>
    have huv : u ≠ v := fun e => h (by rw [e])
    simp only [sema_unblock]
    exact Function.update_noteq huv _ _

theorem sema_unblock_outside (pc_of : Tid → sema_pc) (w : Option Tid) (u : Tid)
    (h : pc_of u = .outside) : sema_unblock pc_of w u = .outside := by
  cases w with
  | none => exact h
  | some v =>
    simp only [sema_unblock]
    by_cases huv : u = v
    · subst huv
      rw [Function.update_same, h]
    · rw [Function.update_noteq huv]; exact h

theorem sema_unblock_not_outside (pc_of : Tid → sema_pc) (w : Option Tid) (u : Tid)
    (h : pc_of u ≠ .outside) : sema_unblock pc_of w u ≠ .outside := by
  cases w with
  | none => exact h
  | some v =>
    simp only [sema_unblock]
    by_cases huv : u = v
    · subst huv
      rw [Function.update_same]
      cases hp : pc_of u with
      | outside => exact absurd hp h
      | blocked => simp
      | resumed => simp
    · rw [Function.update_noteq huv]; exact h

theorem sema_sys_down_returns (s : sema_sys) (t : Tid)
    (h : (sema_sys_down s t).pc_of t = .outside) :
    0 < s.sema.value ∧ (sema_sys_down s t).sema.value + 1 = s.sema.value := by
  unfold sema_sys_down sema_down_pass at h ⊢
  by_cases hv : s.sema.value = 0
  · simp [hv] at h
  · have hpos : 0 < s.sema.value := Nat.pos_of_ne_zero hv
    refine ⟨hpos, ?_⟩
    simp only [hv, if_false]
    rw [uint_dec_of_pos _ hv]
    omega

theorem sema_sys_down_blocks (s : sema_sys) (t : Tid) (hv : s.sema.value = 0) :
    (sema_sys_down s t).pc_of t = .blocked ∧ (sema_sys_down s t).sema.value = 0 ∧
      (sema_sys_down s t).sema.waiters
        = list_insert_ordered (thread_compare_priority s.priority) t s.sema.waiters ∧
      t ∈ (sema_sys_down s t).sema.waiters := by
  have hmem : t ∈ list_insert_ordered (thread_compare_priority s.priority) t s.sema.waiters :=
    (list_insert_ordered_perm _ t s.sema.waiters).symm.subset (List.mem_cons_self _ _)
  unfold sema_sys_down sema_down_pass
  simp [hv, hmem]

/-- C16, a wake-up does not imply availability.
(1) `sema_up` on a count of 0 with waiters removes one waiter from the list, makes it ready
and sets the count to 1: the unit is not handed over.
(2) A resumed thread that finds the count 0 puts itself back into the waiters list and blocks
again; the count is still 0.
(3) A pass of thread `t` through `sema_down` after which `t` is outside has decremented a
strictly positive count by exactly one, and a thread inside `sema_down` gets outside by no
other step than its own pass.
(4) When thread `t` is woken by the `sema_up` of `u` and thread `v` takes the unit, with
`sema_try_down` or with `sema_down`, before `t` runs, then `t`, on resuming, blocks again,
queued, with the count 0. -/
theorem sema_wake_not_availability (s : sema_sys) (t u v : Tid) :
    (s.sema.value = 0 → s.sema.waiters ≠ [] → s.pc_of u = .outside →
      ∃ w rest, (w :: rest).Perm s.sema.waiters ∧
        sema_step s (.call u .up)
          = some { s with sema := { value := 1, waiters := rest },
                          pc_of := sema_unblock s.pc_of (some w) } ∧
        (s.pc_of w = .blocked → sema_unblock s.pc_of (some w) w = .resumed)) ∧
    (s.sema.value = 0 → s.pc_of t = .resumed →
      sema_step s (.resume t) = some (sema_sys_down s t) ∧
      (sema_sys_down s t).pc_of t = .blocked ∧ (sema_sys_down s t).sema.value = 0 ∧
      t ∈ (sema_sys_down s t).sema.waiters) ∧
    (∀ e s1, sema_step s e = some s1 → s1.pc_of t = .outside →
      (e = .call t .down ∨ e = .resume t ∨ s.pc_of t ≠ .outside) →
      (e = .call t .down ∨ e = .resume t) ∧
        0 < s.sema.value ∧ s1.sema.value + 1 = s.sema.value) ∧
    (s.sema.value = 0 → s.pc_of t = .blocked → (sema_up s.priority s.sema).2 = some t →
      s.pc_of u = .outside → s.pc_of v = .outside →
      (∃ s3, sema_exec s [.call u .up, .call v .try_down, .resume t] = some s3 ∧
        s3.pc_of t = .blocked ∧ t ∈ s3.sema.waiters ∧ s3.sema.value = 0) ∧
      (∃ s3, sema_exec s [.call u .up, .call v .down, .resume t] = some s3 ∧
        s3.pc_of t = .blocked ∧ t ∈ s3.sema.waiters ∧ s3.sema.value = 0 ∧
        s3.pc_of v = .outside)) := by
  refine ⟨?_, ?_, ?_, ?_⟩
  · intro hv hne hu
    obtain ⟨w, rest, hsort, hperm⟩ :=
      list_sort_ne_nil (thread_compare_priority s.priority) s.sema.waiters hne
    refine ⟨w, rest, hperm, ?_, fun h => sema_unblock_woken _ _ h⟩
    simp [sema_step, hu, sema_up, isEmpty_eq_false_of_ne_nil _ hne, hsort, hv, uint_inc_zero]
  · intro hv ht
    obtain ⟨h1, h2, _, h4⟩ := sema_sys_down_blocks s t hv
    exact ⟨by simp [sema_step, ht], h1, h2, h4⟩
  · intro e s1 hs hout hor
    cases e with
    | set_priority x p =>
      simp only [sema_step, Option.some.injEq] at hs
      subst hs
      rcases hor with h | h | h
      · exact absurd h (by simp)
      · exact absurd h (by simp)
      · exact absurd hout h
    | resume x =>
      simp only [sema_step] at hs
      split at hs
      · simp only [Option.some.injEq] at hs
        subst hs
        by_cases hxt : x = t
        · subst hxt
          exact ⟨Or.inr rfl, sema_sys_down_returns s x hout⟩
        · have hpc : (sema_sys_down s x).pc_of t = s.pc_of t :=
            Function.update_noteq (Ne.symm hxt) _ _
          rw [hpc] at hout
          rcases hor with h | h | h
          · exact absurd h (by simp)
          · simp only [sema_event.resume.injEq] at h
            exact absurd h hxt
          · exact absurd hout h
      · exact absurd hs (by simp)
    | call x c =>
      cases c with
      | down =>
        simp only [sema_step] at hs
        split at hs
        · simp only [Option.some.injEq] at hs
          subst hs
          by_cases hxt : x = t
          · subst hxt
            exact ⟨Or.inl rfl, sema_sys_down_returns s x hout⟩
          · have hpc : (sema_sys_down s x).pc_of t = s.pc_of t :=
              Function.update_noteq (Ne.symm hxt) _ _
            rw [hpc] at hout
            rcases hor with h | h | h
            · simp only [sema_event.call.injEq, and_true] at h
              exact absurd h hxt
            · exact absurd h (by simp)
            · exact absurd hout h
        · exact absurd hs (by simp)
      | try_down =>
        simp only [sema_step] at hs
        split at hs
        · simp only [Option.some.injEq] at hs
          subst hs
          rcases hor with h | h | h
          · exact absurd h (by simp)
          · exact absurd h (by simp)
          · exact absurd hout h
        · exact absurd hs (by simp)
      | up =>
        simp only [sema_step] at hs
        split at hs
        · simp only [Option.some.injEq] at hs
          subst hs
          rcases hor with h | h | h
          · exact absurd h (by simp)
          · exact absurd h (by simp)
          · exact absurd hout (sema_unblock_not_outside _ _ _ h)
        · exact absurd hs (by simp)
  · intro hv ht hw hu hv2
    have hvt : v ≠ t := by
      intro e; rw [e, ht] at hv2; exact absurd hv2 (by simp)
    have hval : (sema_up s.priority s.sema).1.value = 1 := by
      rw [sema_up_value, hv, uint_inc_zero]
    obtain ⟨s1, hs1⟩ : ∃ s1 : sema_sys, s1 =
        { s with sema := (sema_up s.priority s.sema).1,
                 pc_of := sema_unblock s.pc_of (some t) } := ⟨_, rfl⟩
    have h1 : sema_step s (.call u .up) = some s1 := by
      rw [hs1]; simp [sema_step, hu, hw]
    have hs1v : s1.sema.value = 1 := by rw [hs1]; exact hval
    have hs1pv : s1.pc_of v = .outside := by
      rw [hs1]; exact sema_unblock_outside s.pc_of (some t) v hv2
    have hs1pt : s1.pc_of t = .resumed := by
      rw [hs1]; exact sema_unblock_woken s.pc_of t ht
    constructor
    · obtain ⟨s2, hs2⟩ : ∃ s2 : sema_sys, s2 =
          { s1 with sema := (sema_try_down s1.sema).1 } := ⟨_, rfl⟩
      have h2 : sema_step s1 (.call v .try_down) = some s2 := by
        rw [hs2]; simp [sema_step, hs1pv]
      have hs2v : s2.sema.value = 0 := by
        rw [hs2]
        show (sema_try_down s1.sema).1.value = 0
        unfold sema_try_down
        simp [hs1v, uint_dec_one]
      have hs2pt : s2.pc_of t = .resumed := by rw [hs2]; exact hs1pt
      have h3 : sema_step s2 (.resume t) = some (sema_sys_down s2 t) := by
        simp [sema_step, hs2pt]
      obtain ⟨b1, b2, _, b4⟩ := sema_sys_down_blocks s2 t hs2v
      refine ⟨_, ?_, b1, b4, b2⟩
      simp only [sema_exec, h1, h2, h3]
    · have h2 : sema_step s1 (.call v .down) = some (sema_sys_down s1 v) := by
        simp [sema_step, hs1pv]
      have hd : (sema_down_pass s1.priority s1.sema v).2 = true ∧
          (sema_down_pass s1.priority s1.sema v).1.value = 0 := by
        unfold sema_down_pass
        simp [hs1v, uint_dec_one]
      have hs2v : (sema_sys_down s1 v).sema.value = 0 := hd.2
      have hs2pv : (sema_sys_down s1 v).pc_of v = .outside := by
        show Function.update s1.pc_of v
          (if (sema_down_pass s1.priority s1.sema v).2 = true then sema_pc.outside
            else sema_pc.blocked) v = .outside
        rw [Function.update_same, if_pos hd.1]
      have hs2pt : (sema_sys_down s1 v).pc_of t = .resumed := by
        show Function.update s1.pc_of v _ t = .resumed
        rw [Function.update_noteq (Ne.symm hvt)]; exact hs1pt
      have h3 : sema_step (sema_sys_down s1 v) (.resume t)
          = some (sema_sys_down (sema_sys_down s1 v) t) := by
        simp [sema_step, hs2pt]
      obtain ⟨b1, b2, _, b4⟩ := sema_sys_down_blocks (sema_sys_down s1 v) t hs2v
      refine ⟨_, ?_, b1, b4, b2, ?_⟩
      · simp only [sema_exec, h1, h2, h3]
      · show Function.update (sema_sys_down s1 v).pc_of t _ v = .outside
        rw [Function.update_noteq hvt]; exact hs2pv


/-! ## The invariant of the wait queues and of the private semaphores -/

theorem cell_inv_free_facts {W : List Tid} {cell : Tid → semaphore} {ups : Tid → Nat}
    {pc_of : Tid → pc} (h : cell_inv W cell ups pc_of) (t : Tid)
    (hq : queued_pc (pc_of t) = false) :
    t ∉ W ∧ (∀ x b, pc_of x ≠ .sig_up t b) ∧ pc_of t ≠ .wait_blocked := by
  refine ⟨?_, ?_, ?_⟩
  · intro hm
    rw [(h.queued t hm).1] at hq
    exact absurd hq (by simp)
  · intro x b hx
    rw [(h.popped x t b hx).1] at hq
    exact absurd hq (by simp)
  · intro hb
    rw [hb] at hq
    exact absurd hq (by simp [queued_pc])

/-- A thread whose cell is neither queued nor about to be signalled moves on, and the count of
its private semaphore may change within the bound. -/
theorem cell_inv_free {W : List Tid} {cell : Tid → semaphore} {ups : Tid → Nat}
    {pc_of : Tid → pc} (h : cell_inv W cell ups pc_of) (t : Tid) (p : pc) (v : Nat)
    (hW : t ∉ W) (hsig : ∀ x b, pc_of x ≠ .sig_up t b) (hb : pc_of t ≠ .wait_blocked)
    (hp : is_sig_up p = false) (hv : v ≤ 1) :
    cell_inv W (Function.update cell t { (cell t) with value := v }) ups
      (Function.update pc_of t p) := by
  have hpsig : ∀ c b, p ≠ .sig_up c b := by
    intro c b e; rw [e] at hp; exact absurd hp (by simp [is_sig_up])
  have hpc : ∀ x c b, Function.update pc_of t p x = .sig_up c b →
      x ≠ t ∧ pc_of x = .sig_up c b := by
    intro x c b hx
    by_cases hxt : x = t
    · subst hxt
      rw [Function.update_same] at hx
      exact absurd hx (hpsig c b)
    · rw [Function.update_noteq hxt] at hx
      exact ⟨hxt, hx⟩
  have ht0 : (cell t).waiters = [] := by
    rcases h.cell_waiters t with h0 | ⟨_, h1⟩
    · exact h0
    · exact absurd h1 hb
  constructor
  · exact h.nodup
  · intro c hc
    have hct : c ≠ t := fun e => hW (e ▸ hc)
    obtain ⟨h1, h2, h3, h4⟩ := h.queued c hc
    rw [Function.update_noteq hct, Function.update_noteq hct]
    refine ⟨h1, h2, h3, ?_⟩
    intro x b hx
    exact h4 x b (hpc x c b hx).2
  · intro x c b hx
    obtain ⟨hxt, hx0⟩ := hpc x c b hx
    have hct : c ≠ t := fun e => hsig x b (e ▸ hx0)
    obtain ⟨h1, h2, h3, h4⟩ := h.popped x c b hx0
    rw [Function.update_noteq hct, Function.update_noteq hct]
    refine ⟨h1, h2, h3, ?_⟩
    intro y b1 hy
    exact h4 y b1 (hpc y c b1 hy).2
  · intro c
    by_cases hct : c = t
    · subst hct
      left
      rw [Function.update_same]
      exact ht0
    · rw [Function.update_noteq hct, Function.update_noteq hct]
      exact h.cell_waiters c
  · intro c
    by_cases hct : c = t
    · subst hct
      rw [Function.update_same]
      exact ⟨hv, (h.bounds c).2⟩
    · rw [Function.update_noteq hct]
      exact h.bounds c

/-- A thread that is not inside the queued part of `cond_wait` moves on. -/
theorem cell_inv_move {W : List Tid} {cell : Tid → semaphore} {ups : Tid → Nat}
    {pc_of : Tid → pc} (h : cell_inv W cell ups pc_of) (t : Tid) (p : pc)
    (hq : queued_pc (pc_of t) = false) (hp : is_sig_up p = false) :
    cell_inv W cell ups (Function.update pc_of t p) := by
  obtain ⟨h1, h2, h3⟩ := cell_inv_free_facts h t hq
  have := cell_inv_free h t p (cell t).value h1 h2 h3 hp (h.bounds t).1
  rwa [Function.update_eq_self] at this

/-- A thread moves on to a position inside the queued part of `cond_wait`; the waiters list
of its private semaphore becomes `ws`. -/
theorem cell_inv_keep {W : List Tid} {cell : Tid → semaphore} {ups : Tid → Nat}
    {pc_of : Tid → pc} (h : cell_inv W cell ups pc_of) (t : Tid) (p : pc) (ws : List Tid)
    (hp : queued_pc p = true) (hws : ws = [] ∨ (ws = [t] ∧ p = .wait_blocked)) :
    cell_inv W (Function.update cell t { (cell t) with waiters := ws }) ups
      (Function.update pc_of t p) := by
  have hpsig : ∀ c b, p ≠ .sig_up c b := by
    intro c b e; rw [e] at hp; exact absurd hp (by simp [queued_pc])
  have hpc : ∀ x c b, Function.update pc_of t p x = .sig_up c b →
      x ≠ t ∧ pc_of x = .sig_up c b := by
    intro x c b hx
    by_cases hxt : x = t
    · subst hxt
      rw [Function.update_same] at hx
      exact absurd hx (hpsig c b)
    · rw [Function.update_noteq hxt] at hx
      exact ⟨hxt, hx⟩
  have hqd : ∀ c, queued_pc (pc_of c) = true →
      queued_pc (Function.update pc_of t p c) = true := by
    intro c hc
    by_cases hct : c = t
    · subst hct; rw [Function.update_same]; exact hp
    · rw [Function.update_noteq hct]; exact hc
  have hval : ∀ c, (Function.update cell t { (cell t) with waiters := ws } c).value
      = (cell c).value := by
    intro c
    by_cases hct : c = t
    · subst hct; rw [Function.update_same]
    · rw [Function.update_noteq hct]
  constructor
  · exact h.nodup
  · intro c hc
    obtain ⟨h1, h2, h3, h4⟩ := h.queued c hc
    refine ⟨hqd c h1, by rw [hval]; exact h2, h3, ?_⟩
    intro x b hx
    exact h4 x b (hpc x c b hx).2
  · intro x c b hx
    obtain ⟨hxt, hx0⟩ := hpc x c b hx
    obtain ⟨h1, h2, h3, h4⟩ := h.popped x c b hx0
    refine ⟨hqd c h1, by rw [hval]; exact h2, h3, ?_⟩
    intro y b1 hy
    exact h4 y b1 (hpc y c b1 hy).2
  · intro c
    by_cases hct : c = t
    · subst hct
      rw [Function.update_same, Function.update_same]
      exact hws
    · rw [Function.update_noteq hct, Function.update_noteq hct]
      exact h.cell_waiters c
  · intro c
    rw [hval]
    exact h.bounds c


/-- A thread inside the queued part of `cond_wait` that is not suspended moves on inside it,
to a position where it is not suspended either. -/
theorem cell_inv_stay {W : List Tid} {cell : Tid → semaphore} {ups : Tid → Nat}
    {pc_of : Tid → pc} (h : cell_inv W cell ups pc_of) (t : Tid) (p : pc)
    (hb : pc_of t ≠ .wait_blocked) (hp : queued_pc p = true) :
    cell_inv W cell ups (Function.update pc_of t p) := by
  have ht0 : (cell t).waiters = [] := by
    rcases h.cell_waiters t with h0 | ⟨_, h1⟩
    · exact h0
    · exact absurd h1 hb
  have := cell_inv_keep h t p [] hp (Or.inl rfl)
  have he : ({ (cell t) with waiters := [] } : semaphore) = cell t := by
    cases hc : cell t with
    | mk v w =>
      rw [hc] at ht0
      simp only at ht0
      rw [ht0]
  rwa [he, Function.update_eq_self] at this

/-- Lines 317-320 of `cond_wait`: the cell of `t` is initialised and queued. -/
theorem cell_inv_enter {W W1 : List Tid} {cell : Tid → semaphore} {ups : Tid → Nat}
    {pc_of : Tid → pc} (h : cell_inv W cell ups pc_of) (t : Tid)
    (hq : queued_pc (pc_of t) = false) (hperm : W1.Perm (t :: W)) :
    cell_inv W1 (Function.update cell t (sema_init 0)) (Function.update ups t 0)
      (Function.update pc_of t .wait_release) := by
  obtain ⟨hW, hsig, _⟩ := cell_inv_free_facts h t hq
  have hpc : ∀ x c b, Function.update pc_of t pc.wait_release x = .sig_up c b →
      x ≠ t ∧ pc_of x = .sig_up c b := by
    intro x c b hx
    by_cases hxt : x = t
    · subst hxt
      rw [Function.update_same] at hx
      exact absurd hx (by simp)
    · rw [Function.update_noteq hxt] at hx
      exact ⟨hxt, hx⟩
  constructor
  · exact hperm.nodup_iff.2 (List.nodup_cons.2 ⟨hW, h.nodup⟩)
  · intro c hc
    rcases List.mem_cons.1 (hperm.subset hc) with hct | hcW
    · subst hct
      rw [Function.update_same, Function.update_same, Function.update_same]
      refine ⟨rfl, by decide, rfl, ?_⟩
      intro x b hx
      exact hsig x b (hpc x c b hx).2
    · have hct : c ≠ t := fun e => hW (e ▸ hcW)
      obtain ⟨h1, h2, h3, h4⟩ := h.queued c hcW
      rw [Function.update_noteq hct, Function.update_noteq hct, Function.update_noteq hct]
      refine ⟨h1, h2, h3, ?_⟩
      intro x b hx
      exact h4 x b (hpc x c b hx).2
  · intro x c b hx
    obtain ⟨hxt, hx0⟩ := hpc x c b hx
    have hct : c ≠ t := fun e => hsig x b (e ▸ hx0)
    obtain ⟨h1, h2, h3, h4⟩ := h.popped x c b hx0
    rw [Function.update_noteq hct, Function.update_noteq hct, Function.update_noteq hct]
    refine ⟨h1, h2, h3, ?_⟩
    intro y b1 hy
    exact h4 y b1 (hpc y c b1 hy).2
  · intro c
    by_cases hct : c = t
    · subst hct
      left
      rw [Function.update_same]
      rfl
    · rw [Function.update_noteq hct, Function.update_noteq hct]
      exact h.cell_waiters c
  · intro c
    by_cases hct : c = t
    · subst hct
      rw [Function.update_same, Function.update_same]
      exact ⟨by decide, by decide⟩
    · rw [Function.update_noteq hct, Function.update_noteq hct]
      exact h.bounds c

/-- Line 347 of `cond_signal`, the pop: thread `t` takes the cell `c` from the queue. -/
theorem cell_inv_pop {W rest : List Tid} {cell : Tid → semaphore} {ups : Tid → Nat}
    {pc_of : Tid → pc} (h : cell_inv W cell ups pc_of) (t c : Tid) (b : Bool)
    (hq : queued_pc (pc_of t) = false) (hperm : (c :: rest).Perm W) :
    cell_inv rest cell ups (Function.update pc_of t (.sig_up c b)) := by
  obtain ⟨hW, hsig, hb⟩ := cell_inv_free_facts h t hq
  have hnd : (c :: rest).Nodup := hperm.nodup_iff.2 h.nodup
  have hcrest : c ∉ rest := (List.nodup_cons.1 hnd).1
  have hcW : c ∈ W := hperm.subset (List.mem_cons_self _ _)
  have hct : c ≠ t := fun e => hW (e ▸ hcW)
  have hrestW : ∀ d ∈ rest, d ∈ W := fun d hd => hperm.subset (List.mem_cons_of_mem _ hd)
  have hpc : ∀ x d b1, Function.update pc_of t (pc.sig_up c b) x = .sig_up d b1 →
      (x = t ∧ d = c) ∨ (x ≠ t ∧ pc_of x = .sig_up d b1) := by
    intro x d b1 hx
    by_cases hxt : x = t
    · subst hxt
      rw [Function.update_same] at hx
      simp only [pc.sig_up.injEq] at hx
      exact Or.inl ⟨rfl, hx.1.symm⟩
    · rw [Function.update_noteq hxt] at hx
      exact Or.inr ⟨hxt, hx⟩
  have hqd : ∀ d, queued_pc (pc_of d) = true →
      Function.update pc_of t (pc.sig_up c b) d = pc_of d := by
    intro d hd
    have hdt : d ≠ t := by
      intro e; rw [e, hq] at hd; exact absurd hd (by simp)
    exact Function.update_noteq hdt _ _
  constructor
  · exact (List.nodup_cons.1 hnd).2
  · intro d hd
    obtain ⟨h1, h2, h3, h4⟩ := h.queued d (hrestW d hd)
    refine ⟨by rw [hqd d h1]; exact h1, h2, h3, ?_⟩
    intro x b1 hx
    rcases hpc x d b1 hx with ⟨_, hdc⟩ | ⟨_, hx0⟩
    · exact hcrest (hdc ▸ hd)
    · exact h4 x b1 hx0
  · intro x d b1 hx
    rcases hpc x d b1 hx with ⟨hxt, hdc⟩ | ⟨hxt, hx0⟩
    · subst hxt
      subst hdc
      obtain ⟨h1, h2, h3, h4⟩ := h.queued d hcW
      refine ⟨by rw [hqd d h1]; exact h1, h2, h3, ?_⟩
      intro y b2 hy
      rcases hpc y d b2 hy with ⟨hyt, _⟩ | ⟨_, hy0⟩
      · exact hyt
      · exact absurd hy0 (h4 y b2)
    · obtain ⟨h1, h2, h3, h4⟩ := h.popped x d b1 hx0
      refine ⟨by rw [hqd d h1]; exact h1, h2, h3, ?_⟩
      intro y b2 hy
      rcases hpc y d b2 hy with ⟨_, hdc⟩ | ⟨_, hy0⟩
      · subst hdc
        exact absurd hx0 ((h.queued d hcW).2.2.2 x b1)
      · exact h4 y b2 hy0
  · intro d
    rcases h.cell_waiters d with h0 | ⟨h1, h2⟩
    · exact Or.inl h0
    · right
      refine ⟨h1, ?_⟩
      have hdt : d ≠ t := fun e => hb (e ▸ h2)
      rw [Function.update_noteq hdt]
      exact h2
  · exact h.bounds

/-- Line 347 of `cond_signal`, the `sema_up`, on a private semaphore without waiter: the count
becomes 1 and the signalling thread `t` moves on. -/
theorem cell_inv_signal {W : List Tid} {cell : Tid → semaphore} {ups : Tid → Nat}
    {pc_of : Tid → pc} (h : cell_inv W cell ups pc_of) (t c : Tid) (b : Bool) (p : pc)
    (hpc : pc_of t = .sig_up c b) (hq : queued_pc p = false) (hp : is_sig_up p = false) :
    cell_inv W (Function.update cell c { (cell c) with value := 1 })
      (Function.update ups c 1) (Function.update pc_of t p) := by
  obtain ⟨hcq, _, _, huniq⟩ := h.popped t c b hpc
  have htq : queued_pc (pc_of t) = false := by rw [hpc]; rfl
  have hct : c ≠ t := by
    intro e; rw [e, htq] at hcq; exact absurd hcq (by simp)
  have hcW : c ∉ W := fun hm => (h.queued c hm).2.2.2 t b hpc
  have hpsig : ∀ d b1, p ≠ .sig_up d b1 := by
    intro d b1 e; rw [e] at hp; exact absurd hp (by simp [is_sig_up])
  have hpb : p ≠ .wait_blocked := by
    intro e; rw [e] at hq; exact absurd hq (by simp [queued_pc])
  have hpcs : ∀ x d b1, Function.update pc_of t p x = .sig_up d b1 →
      x ≠ t ∧ pc_of x = .sig_up d b1 ∧ d ≠ c := by
    intro x d b1 hx
    by_cases hxt : x = t
    · subst hxt
      rw [Function.update_same] at hx
      exact absurd hx (hpsig d b1)
    · rw [Function.update_noteq hxt] at hx
      refine ⟨hxt, hx, ?_⟩
      intro hdc
      subst hdc
      exact hxt (huniq x b1 hx)
  have hqd : ∀ d, queued_pc (pc_of d) = true → Function.update pc_of t p d = pc_of d := by
    intro d hd
    have hdt : d ≠ t := by
      intro e; rw [e, htq] at hd; exact absurd hd (by simp)
    exact Function.update_noteq hdt _ _
  constructor
  · exact h.nodup
  · intro d hd
    have hdc : d ≠ c := fun e => hcW (e ▸ hd)
    obtain ⟨h1, h2, h3, h4⟩ := h.queued d hd
    rw [Function.update_noteq hdc, Function.update_noteq hdc]
    refine ⟨by rw [hqd d h1]; exact h1, h2, h3, ?_⟩
    intro x b1 hx
    exact h4 x b1 (hpcs x d b1 hx).2.1
  · intro x d b1 hx
    obtain ⟨_, hx0, hdc⟩ := hpcs x d b1 hx
    obtain ⟨h1, h2, h3, h4⟩ := h.popped x d b1 hx0
    rw [Function.update_noteq hdc, Function.update_noteq hdc]
    refine ⟨by rw [hqd d h1]; exact h1, h2, h3, ?_⟩
    intro y b2 hy
    exact h4 y b2 (hpcs y d b2 hy).2.1
  · intro d
    have hold := h.cell_waiters d
    have hw : (Function.update cell c { (cell c) with value := 1 } d).waiters
        = (cell d).waiters := by
      by_cases hdc : d = c
      · subst hdc; rw [Function.update_same]
      · rw [Function.update_noteq hdc]
    rw [hw]
    rcases hold with h0 | ⟨h1, h2⟩
    · exact Or.inl h0
    · right
      refine ⟨h1, ?_⟩
      have hdt : d ≠ t := by
        intro e; rw [e, hpc] at h2; exact absurd h2 (by simp)
      rw [Function.update_noteq hdt]
      exact h2
  · intro d
    by_cases hdc : d = c
    · subst hdc
      rw [Function.update_same, Function.update_same]
      exact ⟨Nat.le_refl 1, Nat.le_refl 1⟩
    · rw [Function.update_noteq hdc, Function.update_noteq hdc]
      exact h.bounds d

theorem lock_queue_inv_move {LW : List Tid} {pc_of : Tid → pc} (h : lock_queue_inv LW pc_of)
    (t : Tid) (p : pc) (hb : is_acq_blocked (pc_of t) = false) :
    lock_queue_inv LW (Function.update pc_of t p) := by
  refine ⟨h.nodup, ?_⟩
  intro u hu
  have hut : u ≠ t := by
    intro e
    have := h.blocked u hu
    rw [e, hb] at this
    exact absurd this (by simp)
  rw [Function.update_noteq hut]
  exact h.blocked u hu

theorem lock_queue_inv_insert {LW LW1 : List Tid} {pc_of : Tid → pc}
    (h : lock_queue_inv LW pc_of) (t : Tid) (w : Bool)
    (hb : is_acq_blocked (pc_of t) = false) (hperm : LW1.Perm (t :: LW)) :
    lock_queue_inv LW1 (Function.update pc_of t (.acq_blocked w)) := by
  have htLW : t ∉ LW := by
    intro hm
    have := h.blocked t hm
    rw [hb] at this
    exact absurd this (by simp)
  refine ⟨hperm.nodup_iff.2 (List.nodup_cons.2 ⟨htLW, h.nodup⟩), ?_⟩
  intro u hu
  rcases List.mem_cons.1 (hperm.subset hu) with hut | huLW
  · subst hut
    rw [Function.update_same]
    rfl
  · have hut : u ≠ t := fun e => htLW (e ▸ huLW)
    rw [Function.update_noteq hut]
    exact h.blocked u huLW

theorem lock_queue_inv_pop {LW rest : List Tid} {pc_of : Tid → pc}
    (h : lock_queue_inv LW pc_of) (u : Tid) (p : pc) (hperm : (u :: rest).Perm LW) :
    lock_queue_inv rest (Function.update pc_of u p) := by
  have hnd : (u :: rest).Nodup := hperm.nodup_iff.2 h.nodup
  refine ⟨(List.nodup_cons.1 hnd).2, ?_⟩
  intro v hv
  have hvu : v ≠ u := fun e => (List.nodup_cons.1 hnd).1 (e ▸ hv)
  rw [Function.update_noteq hvu]
  exact h.blocked v (hperm.subset (List.mem_cons_of_mem _ hv))

theorem sema_up_cases (priority : Tid → Int) (sema : semaphore) :
    (sema.waiters = [] ∧
      sema_up priority sema = ({ sema with value := uint_inc sema.value }, none)) ∨
    (∃ u rest, (u :: rest).Perm sema.waiters ∧
      sema_up priority sema = ({ value := uint_inc sema.value, waiters := rest }, some u)) := by
  by_cases hne : sema.waiters = []
  · left
    refine ⟨hne, ?_⟩
    simp [sema_up, hne]
  · right
    obtain ⟨u, rest, hsort, hperm⟩ :=
      list_sort_ne_nil (thread_compare_priority priority) sema.waiters hne
    refine ⟨u, rest, hperm, ?_⟩
    simp [sema_up, isEmpty_eq_false_of_ne_nil _ hne, hsort]

theorem sema_try_down_waiters (sema : semaphore) :
    (sema_try_down sema).1.waiters = sema.waiters := by
  unfold sema_try_down
  split <;> rfl


theorem queues_inv_goto {s : kernel} (h : queues_inv s) (t : Tid) (p : pc)
    (hq : queued_pc (s.pc_of t) = false) (hb : is_acq_blocked (s.pc_of t) = false)
    (hp : is_sig_up p = false) : queues_inv (goto s t p) :=
  ⟨lock_queue_inv_move h.1 t p hb, cell_inv_move h.2 t p hq hp⟩

theorem queues_inv_lock_acquire_enter {s : kernel} (h : queues_inv s) (t : Tid) (w : Bool)
    (hq : queued_pc (s.pc_of t) = false) (hb : is_acq_blocked (s.pc_of t) = false) :
    queues_inv (lock_acquire_enter s t w) := by
  unfold lock_acquire_enter
  split
  · exact h
  · exact queues_inv_goto h t _ hq hb rfl

theorem queues_inv_lock_acquire_down {s : kernel} (h : queues_inv s) (t : Tid) (w : Bool)
    (hpc : s.pc_of t = .acq_down w) : queues_inv (lock_acquire_down s t w) := by
  have hq : queued_pc (s.pc_of t) = false := by rw [hpc]; cases w <;> rfl
  have hb : is_acq_blocked (s.pc_of t) = false := by rw [hpc]; rfl
  unfold lock_acquire_down sema_down_pass
  by_cases hv : s.lock.semaphore.value = 0
  · simp only [hv, if_true, Bool.false_eq_true, if_false]
    exact ⟨lock_queue_inv_insert h.1 t w hb (list_insert_ordered_perm _ _ _),
      cell_inv_move h.2 t _ hq rfl⟩
  · simp only [hv, if_false, if_true]
    exact ⟨lock_queue_inv_move h.1 t _ hb, cell_inv_move h.2 t _ hq rfl⟩

theorem queues_inv_set {s : kernel} (h : queues_inv s) (t : Tid)
    (hq : queued_pc (s.pc_of t) = false) (hb : is_acq_blocked (s.pc_of t) = false) :
    queues_inv { s with lock := { s.lock with holder := some t },
                        owns := Function.update s.owns t true,
                        pc_of := Function.update s.pc_of t .idle } :=
  ⟨lock_queue_inv_move h.1 t _ hb, cell_inv_move h.2 t _ hq rfl⟩

theorem queues_inv_lock_try_acquire_enter {s : kernel} (h : queues_inv s) (t : Tid)
    (hq : queued_pc (s.pc_of t) = false) (hb : is_acq_blocked (s.pc_of t) = false) :
    queues_inv (lock_try_acquire_enter s t) := by
  unfold lock_try_acquire_enter
  split
  · exact h
  · refine ⟨?_, ?_⟩
    · show lock_queue_inv (sema_try_down s.lock.semaphore).1.waiters _
      rw [sema_try_down_waiters]
      exact lock_queue_inv_move h.1 t _ hb
    · refine cell_inv_move h.2 t _ hq ?_
      split <;> rfl

theorem queues_inv_lock_release_enter {s : kernel} (h : queues_inv s) (t : Tid) (w : Bool)
    (hpc : (s.pc_of t = .idle ∧ w = false) ∨ (s.pc_of t = .wait_release ∧ w = true)) :
    queues_inv (lock_release_enter s t w) := by
  unfold lock_release_enter
  split
  · rcases hpc with ⟨hpc, hw⟩ | ⟨hpc, hw⟩
    · subst hw
      exact ⟨lock_queue_inv_move h.1 t _ (by rw [hpc]; rfl),
        cell_inv_move h.2 t _ (by rw [hpc]; rfl) rfl⟩
    · subst hw
      exact ⟨lock_queue_inv_move h.1 t _ (by rw [hpc]; rfl),
        cell_inv_stay h.2 t _ (by rw [hpc]; simp) rfl⟩
  · exact h

theorem queues_inv_lock_release_up {s : kernel} (h : queues_inv s) (t : Tid) (w : Bool)
    (hpc : s.pc_of t = .rel_up w) : queues_inv (lock_release_up s t w) := by
  have hbt : is_acq_blocked (s.pc_of t) = false := by rw [hpc]; rfl
  have hlast : ∀ (LW : List Tid) (pc1 : Tid → pc), pc1 t = .rel_up w →
      lock_queue_inv LW pc1 → cell_inv s.cond.waiters s.cell s.ups pc1 →
      lock_queue_inv LW (Function.update pc1 t (if w then .wait_down else .idle)) ∧
      cell_inv s.cond.waiters s.cell s.ups
        (Function.update pc1 t (if w then .wait_down else .idle)) := by
    intro LW pc1 h1 hl hc
    refine ⟨lock_queue_inv_move hl t _ (by rw [h1]; rfl), ?_⟩
    cases w
    · exact cell_inv_move hc t _ (by rw [h1]; rfl) rfl
    · exact cell_inv_stay hc t _ (by rw [h1]; simp) rfl
  unfold lock_release_up
  rcases sema_up_cases s.priority s.lock.semaphore with ⟨hnil, hup⟩ | ⟨u, rest, hperm, hup⟩
  · rw [hup]
    have h1 : lock_queue_inv ([] : List Tid) s.pc_of := ⟨List.nodup_nil, by simp⟩
    have := hlast s.lock.semaphore.waiters s.pc_of hpc h.1 h.2
    exact this
  · rw [hup]
    have hu : is_acq_blocked (s.pc_of u) = true :=
      h.1.blocked u (hperm.subset (List.mem_cons_self _ _))
    have hut : t ≠ u := by
      intro e; rw [← e, hbt] at hu; exact absurd hu (by simp)
    obtain ⟨w1, hw1⟩ : ∃ w1, s.pc_of u = .acq_blocked w1 := by
      cases hp : s.pc_of u with
      | acq_blocked w1 => exact ⟨w1, rfl⟩
      | _ => rw [hp] at hu; exact absurd hu (by simp [is_acq_blocked])
    have hunb : unblock s.pc_of (some u) = Function.update s.pc_of u (.acq_down w1) := by
      simp only [unblock, hw1]
    have hl := lock_queue_inv_pop h.1 u (.acq_down w1) hperm
    have hc := cell_inv_move h.2 u (.acq_down w1) (by rw [hw1]; cases w1 <;> rfl) rfl
    have := hlast rest (Function.update s.pc_of u (.acq_down w1))
      (by rw [Function.update_noteq hut]; exact hpc) hl hc
    show lock_queue_inv rest (Function.update (unblock s.pc_of (some u)) t _) ∧
      cell_inv s.cond.waiters s.cell s.ups (Function.update (unblock s.pc_of (some u)) t _)
    rw [hunb]
    exact this

theorem queues_inv_cond_wait_enter {s : kernel} (h : queues_inv s) (t : Tid)
    (hpc : s.pc_of t = .idle) : queues_inv (cond_wait_enter s t) := by
  unfold cond_wait_enter
  split
  · exact ⟨lock_queue_inv_move h.1 t _ (by rw [hpc]; rfl),
      cell_inv_enter h.2 t (by rw [hpc]; rfl) (list_insert_ordered_perm _ _ _)⟩
  · exact h

theorem queues_inv_cond_wait_down {s : kernel} (h : queues_inv s) (t : Tid)
    (hpc : s.pc_of t = .wait_down) : queues_inv (cond_wait_down s t) := by
  have hbt : is_acq_blocked (s.pc_of t) = false := by rw [hpc]; rfl
  have hnb : s.pc_of t ≠ .wait_blocked := by rw [hpc]; simp
  have ht0 : (s.cell t).waiters = [] := by
    rcases h.2.cell_waiters t with h0 | ⟨_, h1⟩
    · exact h0
    · exact absurd h1 hnb
  unfold cond_wait_down sema_down_pass
  by_cases hv : (s.cell t).value = 0
  · simp only [hv, if_true, Bool.false_eq_true, if_false, goto, ht0, list_insert_ordered]
    have hk := cell_inv_keep h.2 t .wait_blocked [t] rfl (Or.inr ⟨rfl, rfl⟩)
    have he : ({ (s.cell t) with waiters := [t] } : semaphore)
        = { value := 0, waiters := [t] } := by
      show ({ value := (s.cell t).value, waiters := [t] } : semaphore) = _
      rw [hv]
    rw [he] at hk
    exact ⟨lock_queue_inv_move h.1 t _ hbt, hk⟩
  · simp only [hv, if_false, if_true]
    have hW : t ∉ s.cond.waiters := fun hm => hv (h.2.queued t hm).2.1
    have hsig : ∀ x b, s.pc_of x ≠ .sig_up t b := fun x b hx => hv (h.2.popped x t b hx).2.1
    have hle : uint_dec (s.cell t).value ≤ 1 := by
      rw [uint_dec_of_pos _ hv]
      have := (h.2.bounds t).1
      omega
    unfold lock_acquire_enter
    split
    · refine ⟨h.1, ?_⟩
      have := cell_inv_free h.2 t (s.pc_of t) (uint_dec (s.cell t).value) hW hsig hnb
        (by rw [hpc]; rfl) hle
      rwa [Function.update_eq_self] at this
    · exact ⟨lock_queue_inv_move h.1 t _ hbt,
        cell_inv_free h.2 t (.acq_down true) (uint_dec (s.cell t).value) hW hsig hnb rfl hle⟩

theorem queues_inv_cond_signal_enter {s : kernel} (h : queues_inv s) (t : Tid) (b : Bool)
    (hq : queued_pc (s.pc_of t) = false) (hb : is_acq_blocked (s.pc_of t) = false) :
    queues_inv (cond_signal_enter s t b) := by
  unfold cond_signal_enter
  split
  · split
    · exact queues_inv_goto h t _ hq hb (by cases b <;> rfl)
    · rename_i hne
      have hne2 : s.cond.waiters ≠ [] := by
        intro e; rw [e] at hne; exact hne rfl
      obtain ⟨c, rest, hsort, hperm⟩ :=
        list_sort_ne_nil (sema_compare_priority s.priority s.stale s.cell) s.cond.waiters hne2
      rw [hsort]
      exact ⟨lock_queue_inv_move h.1 t _ hb, cell_inv_pop h.2 t c b hq hperm⟩
  · exact h

theorem queues_inv_cond_signal_up {s : kernel} (h : queues_inv s) (t c : Tid) (b : Bool)
    (hpc : s.pc_of t = .sig_up c b) : queues_inv (cond_signal_up s t c b) := by
  have hbt : is_acq_blocked (s.pc_of t) = false := by rw [hpc]; rfl
  have hqt : queued_pc (s.pc_of t) = false := by rw [hpc]; rfl
  obtain ⟨hcq, hcv, hcu, _⟩ := h.2.popped t c b hpc
  have hct : c ≠ t := by
    intro e; rw [e, hqt] at hcq; exact absurd hcq (by simp)
  have hp1 : queued_pc (if b then pc.bc_test else pc.idle) = false := by cases b <;> rfl
  have hp2 : is_sig_up (if b then pc.bc_test else pc.idle) = false := by cases b <;> rfl
  unfold cond_signal_up
  rcases h.2.cell_waiters c with h0 | ⟨h1, h2⟩
  · have hup : sema_up s.priority (s.cell c)
        = ({ (s.cell c) with value := 1 }, none) := by
      simp [sema_up, h0, hcv, uint_inc_zero]
    rw [hup]
    refine ⟨lock_queue_inv_move h.1 t _ hbt, ?_⟩
    have := cell_inv_signal h.2 t c b _ hpc hp1 hp2
    show cell_inv s.cond.waiters (Function.update s.cell c { (s.cell c) with value := 1 })
      (Function.update s.ups c (s.ups c + 1)) (Function.update s.pc_of t _)
    rw [hcu]
    exact this
  · have hup : sema_up s.priority (s.cell c)
        = ({ value := 1, waiters := [] }, some c) := by
      rw [sema_up_single _ _ _ h1, hcv, uint_inc_zero]
    rw [hup]
    have hunb : unblock s.pc_of (some c) = Function.update s.pc_of c .wait_down := by
      simp only [unblock, h2]
    have hcb : is_acq_blocked (s.pc_of c) = false := by rw [h2]; rfl
    have hl := lock_queue_inv_move (lock_queue_inv_move h.1 c .wait_down hcb) t
      (if b then pc.bc_test else pc.idle)
      (by rw [Function.update_noteq (Ne.symm hct)]; exact hbt)
    have hc1 := cell_inv_keep h.2 c .wait_down [] rfl (Or.inl rfl)
    have hc2 := cell_inv_signal hc1 t c b (if b then pc.bc_test else pc.idle)
      (by rw [Function.update_noteq (Ne.symm hct)]; exact hpc) hp1 hp2
    rw [Function.update_same, Function.update_idem] at hc2
    show lock_queue_inv s.lock.semaphore.waiters
        (Function.update (unblock s.pc_of (some c)) t _) ∧
      cell_inv s.cond.waiters (Function.update s.cell c { value := 1, waiters := [] })
        (Function.update s.ups c (s.ups c + 1))
        (Function.update (unblock s.pc_of (some c)) t _)
    rw [hunb, hcu]
    exact ⟨hl, hc2⟩

theorem queues_inv_cond_broadcast_test {s : kernel} (h : queues_inv s) (t : Tid)
    (hpc : s.pc_of t = .bc_test) : queues_inv (cond_broadcast_test s t) := by
  have hq : queued_pc (s.pc_of t) = false := by rw [hpc]; rfl
  have hb : is_acq_blocked (s.pc_of t) = false := by rw [hpc]; rfl
  unfold cond_broadcast_test
  split
  · exact queues_inv_goto h t _ hq hb rfl
  · exact queues_inv_cond_signal_enter h t true hq hb

theorem queues_inv_boot (priority stale : Tid → Int) : queues_inv (boot priority stale) := by
  refine ⟨⟨List.nodup_nil, ?_⟩, ⟨List.nodup_nil, ?_, ?_, ?_, ?_⟩⟩
  · intro u hu
    exact absurd hu (List.not_mem_nil u)
  · intro c hc
    exact absurd hc (List.not_mem_nil c)
  · intro x c b hx
    exact absurd hx (by simp [boot])
  · intro c
    exact Or.inl rfl
  · intro c
    show (sema_init 0).value ≤ 1 ∧ 0 ≤ 1
    exact ⟨by decide, by decide⟩

theorem queues_inv_step {s s1 : kernel} (e : event) (h : queues_inv s)
    (hs : step s e = some s1) : queues_inv s1 := by
  unfold step at hs
  split at hs
  · exact absurd hs (by simp)
  · cases e with
    | set_priority t p =>
      simp only [Option.some.injEq] at hs
      subst hs
      exact h
    | call t c =>
      simp only at hs
      split at hs
      · rename_i hpc
        simp only [Option.some.injEq] at hs
        subst hs
        have hq : queued_pc (s.pc_of t) = false := by rw [hpc]; rfl
        have hb : is_acq_blocked (s.pc_of t) = false := by rw [hpc]; rfl
        cases c with
        | lock_acquire => exact queues_inv_lock_acquire_enter h t false hq hb
        | lock_try_acquire => exact queues_inv_lock_try_acquire_enter h t hq hb
        | lock_release => exact queues_inv_lock_release_enter h t false (Or.inl ⟨hpc, rfl⟩)
        | cond_wait => exact queues_inv_cond_wait_enter h t hpc
        | cond_signal => exact queues_inv_cond_signal_enter h t false hq hb
        | cond_broadcast => exact queues_inv_goto h t _ hq hb rfl
      · exact absurd hs (by simp)
    | run t =>
      simp only at hs
      split at hs <;> rename_i hpc <;>
        simp only [Option.some.injEq, reduceCtorEq] at hs <;> subst hs
      · exact queues_inv_lock_acquire_down h t _ hpc
      · exact queues_inv_set h t (by rw [hpc]; rename_i w; cases w <;> rfl) (by rw [hpc]; rfl)
      · exact queues_inv_set h t (by rw [hpc]; rfl) (by rw [hpc]; rfl)
      · exact queues_inv_lock_release_up h t _ hpc
      · exact queues_inv_lock_release_enter h t true (Or.inr ⟨hpc, rfl⟩)
      · exact queues_inv_cond_wait_down h t hpc
      · exact queues_inv_cond_signal_up h t _ _ hpc
      · exact queues_inv_cond_broadcast_test h t hpc

theorem queues_inv_reachable {s : kernel} (h : reachable s) : queues_inv s := by
  induction h with
  | boot priority stale => exact queues_inv_boot priority stale
  | step e _ hs ih => exact queues_inv_step e ih hs


/-! ## Life of a waiter cell -/

theorem queued_pc_unblock (pc_of : Tid → pc) (w : Option Tid) (u : Tid) :
    queued_pc (unblock pc_of w u) = queued_pc (pc_of u) := by
  cases w with
  | none => rfl
  | some v =>
    simp only [unblock]
    by_cases h : u = v
    · subst h
      simp only [Function.update_same]
      cases pc_of u <;> rfl
    · simp [Function.update_noteq h]

theorem in_wait_of_queued (p : pc) (h : queued_pc p = true) : in_wait p = true := by
  cases p with
  | rel_up w =>
    cases w
    · exact absurd h (by simp [queued_pc])
    · rfl
  | wait_release => rfl
  | wait_down => rfl
  | wait_blocked => rfl
  | _ => exact absurd h (by simp [queued_pc])

theorem cond_of_cond_wait_down (s : kernel) (t : Tid) :
    (cond_wait_down s t).cond = s.cond := by
  unfold cond_wait_down lock_acquire_enter
  dsimp only
  split
  · split <;> rfl
  · rfl

/-- A thread in the queued part of `cond_wait` leaves it only by its own pass through the
`sema_down` of line 322. -/
theorem step_queued {s s1 : kernel} {e : event} {c : Tid} (hs : step s e = some s1)
    (hin : queued_pc (s.pc_of c) = true) :
    queued_pc (s1.pc_of c) = true ∨
      (e = .run c ∧ s.pc_of c = .wait_down ∧ s1 = cond_wait_down s c) := by
  by_cases hev : event_thread e = some c
  · unfold step at hs
    split at hs
    · exact absurd hs (by simp)
    · cases e with
      | set_priority u p => simp [event_thread] at hev
      | call u k =>
        simp only [event_thread, Option.some.injEq] at hev
        subst hev
        simp only at hs
        split at hs
        · rename_i hpc
          rw [hpc] at hin
          exact absurd hin (by simp [queued_pc])
        · exact absurd hs (by simp)
      | run u =>
        simp only [event_thread, Option.some.injEq] at hev
        subst hev
        simp only at hs
        split at hs <;> rename_i hpc <;>
          simp only [Option.some.injEq, reduceCtorEq] at hs <;> subst hs <;>
          rw [hpc] at hin
        · exact absurd hin (by simp [queued_pc])
        · exact absurd hin (by simp [queued_pc])
        · exact absurd hin (by simp [queued_pc])
        · rename_i w
          cases w
          · exact absurd hin (by simp [queued_pc])
          · left
            unfold lock_release_up
            dsimp only
            rw [Function.update_same]
            rfl
        · left
          unfold lock_release_enter
          split
          · dsimp only
            rw [Function.update_same]
            rfl
          · show queued_pc (s.pc_of u) = true
            rw [hpc]; rfl
        · right; exact ⟨rfl, hpc, rfl⟩
        · exact absurd hin (by simp [queued_pc])
        · exact absurd hin (by simp [queued_pc])
  · left
    obtain ⟨w, hw⟩ := step_pc_of_other hs hev
    rw [hw, queued_pc_unblock]
    exact hin

/-- C13, life of a waiter cell. In every state the kernel can reach, a cell in the queue of
the condition variable belongs to a thread that is inside `cond_wait` and has not got past
the `sema_down` on its private semaphore, whose count is 0: no cell of a call that has
returned is queued. A step by which a thread gets past that `sema_down` is its own pass
through it, and its cell is in the queue neither before nor after the step. -/
theorem cond_waiters_live (s : kernel) (h : reachable s) :
    (∀ c ∈ s.cond.waiters, queued_pc (s.pc_of c) = true ∧ in_wait (s.pc_of c) = true ∧
      (s.cell c).value = 0) ∧
    (∀ e s1 c, step s e = some s1 → queued_pc (s.pc_of c) = true →
      queued_pc (s1.pc_of c) = false →
      e = .run c ∧ s.pc_of c = .wait_down ∧ c ∉ s.cond.waiters ∧ c ∉ s1.cond.waiters) := by
  have hinv := queues_inv_reachable h
  constructor
  · intro c hc
    obtain ⟨h1, h2, _, _⟩ := hinv.2.queued c hc
    exact ⟨h1, in_wait_of_queued _ h1, h2⟩
  · intro e s1 c hs hin hout
    have hinv1 := queues_inv_step e hinv hs
    have hc1 : c ∉ s1.cond.waiters := by
      intro hm
      rw [(hinv1.2.queued c hm).1] at hout
      exact absurd hout (by simp)
    rcases step_queued hs hin with h1 | ⟨he, hpc, hs1⟩
    · rw [h1] at hout; exact absurd hout (by simp)
    · refine ⟨he, hpc, ?_, hc1⟩
      rw [hs1, cond_of_cond_wait_down] at hc1
      exact hc1

/-- C14, private semaphores. In every state the kernel can reach, the private semaphore of
every cell `c` has a count of at most 1; its waiters list is empty or holds the owner `c`
alone, who is then suspended on it; `sema_up` has run at most once on it since its
`sema_init`; and when a thread is about to run `sema_up` on it, none has run before, the count
is 0 and the owner is still inside its `cond_wait`. -/
theorem private_semaphore_invariant (s : kernel) (h : reachable s) (c : Tid) :
    (s.cell c).value ≤ 1 ∧
    ((s.cell c).waiters = [] ∨ (s.cell c).waiters = [c]) ∧
    (s.cell c).waiters.length ≤ 1 ∧
    (∀ u ∈ (s.cell c).waiters, u = c ∧ s.pc_of c = .wait_blocked) ∧
    s.ups c ≤ 1 ∧
    (∀ x b, s.pc_of x = .sig_up c b →
      s.ups c = 0 ∧ (s.cell c).value = 0 ∧ in_wait (s.pc_of c) = true ∧
      ∀ y b1, s.pc_of y = .sig_up c b1 → y = x) := by
  have hinv := queues_inv_reachable h
  refine ⟨(hinv.2.bounds c).1, ?_, ?_, ?_, (hinv.2.bounds c).2, ?_⟩
  · rcases hinv.2.cell_waiters c with h0 | ⟨h1, _⟩
    · exact Or.inl h0
    · exact Or.inr h1
  · rcases hinv.2.cell_waiters c with h0 | ⟨h1, _⟩
    · rw [h0]; exact Nat.zero_le 1
    · rw [h1]; exact Nat.le_refl 1
  · intro u hu
    rcases hinv.2.cell_waiters c with h0 | ⟨h1, h2⟩
    · rw [h0] at hu
      exact absurd hu (List.not_mem_nil u)
    · rw [h1] at hu
      exact ⟨List.mem_singleton.1 hu, h2⟩
  · intro x b hx
    obtain ⟨h1, h2, h3, h4⟩ := hinv.2.popped x c b hx
    exact ⟨h3, h2, in_wait_of_queued _ h1, h4⟩

/-- C18, failing inputs. (1) Thread 1 is blocked in `cond_wait` and its cell is queued;
thread 2 holds the lock and calls `cond_wait`: line 320 calls `sema_compare_priority` on the
cell of thread 2 and the cell of thread 1, and the waiters list of the cell of thread 2,
initialised at line 317, is empty. (2) Thread 2 has queued its cell and released the lock
but has not yet blocked; thread 3 holds the lock and calls `cond_signal`: line 346 calls
`sema_compare_priority` on the cells of threads 2 and 1, and the waiters list of the cell of
thread 2 is empty. -/
theorem sema_compare_priority_reads_empty_list :
    reachable demo_one_waiting ∧
      demo_one_waiting.cond.waiters = [1] ∧ demo_one_waiting.lock.holder = some 2 ∧
      demo_one_waiting.pc_of 2 = .idle ∧ demo_one_waiting.panicked = false ∧
      cond_wait_calls demo_one_waiting 2 = [(2, 1)] ∧
      (Function.update demo_one_waiting.cell 2 (sema_init 0) 2).waiters = [] ∧
    reachable demo_released ∧
      demo_released.cond.waiters = [1, 2] ∧ demo_released.lock.holder = some 3 ∧
      demo_released.pc_of 3 = .idle ∧ demo_released.pc_of 2 = .wait_down ∧
      demo_released.panicked = false ∧
      cond_signal_calls demo_released = [(2, 1)] ∧
      (demo_released.cell 2).waiters = [] := by
  refine ⟨reachable_run_events _ _ (reachable.boot _ _), by decide, by decide, by decide,
    by decide, by decide, by decide,
    reachable_run_events _ _ (reachable_run_events _ _ (reachable.boot _ _)), by decide,
    by decide, by decide, by decide, by decide, by decide, by decide⟩


/-! ## Instances on concrete states -/

/-- Instance of C1: thread 1 holds the lock, thread 2 is blocked in `lock_acquire`. -/
theorem lock_mutual_exclusion_witness :
    reachable demo_held ∧
      demo_held.owns 1 = true ∧ demo_held.pc_of 2 = .acq_blocked false ∧
      lock_held_by_current_thread demo_held.lock 2 = false ∧
      ((∀ t u, demo_held.owns t = true → demo_held.owns u = true → t = u) ∧
       (∀ t, lock_held_by_current_thread demo_held.lock t = demo_held.owns t) ∧
       (∀ e s1 t, step demo_held e = some s1 → demo_held.owns t = false →
          s1.owns t = true →
          e = .run t ∧ demo_held.lock.holder = none ∧ (∀ u, demo_held.owns u = false) ∧
          s1.lock.holder = some t ∧ (∀ u, s1.owns u = true → u = t))) :=
  ⟨reachable_run_events _ _ (reachable.boot _ _), by decide, by decide, by decide,
    lock_mutual_exclusion demo_held (reachable_run_events _ _ (reachable.boot _ _))⟩

/-- Instance of C2: a `sema_try_down` that takes the count from 1 to 0. -/
theorem sema_value_never_wraps_down_witness :
    sema_exec (sema_boot 1 demo_priority) [.call 1 .down, .call 3 .up]
        = some demo_sema_free ∧
      sema_step demo_sema_free (.call 2 .try_down)
        = some { demo_sema_free with sema := (sema_try_down demo_sema_free.sema).1 } ∧
      demo_sema_free.sema.value = 1 ∧ (sema_try_down demo_sema_free.sema).1.value = 0 ∧
      (demo_sema_free.sema.value < UINT_RANGE ∧
       (sema_try_down demo_sema_free.sema).1.value < UINT_RANGE ∧
       (is_up (.call 2 .try_down) = true →
          (sema_try_down demo_sema_free.sema).1.value = uint_inc demo_sema_free.sema.value) ∧
       (is_up (.call 2 .try_down) = false →
          (sema_try_down demo_sema_free.sema).1.value = demo_sema_free.sema.value ∨
          (0 < demo_sema_free.sema.value ∧
            (sema_try_down demo_sema_free.sema).1.value + 1 = demo_sema_free.sema.value))) :=
  ⟨rfl, rfl, by decide, by decide,
    sema_value_never_wraps_down 1 demo_priority [.call 1 .down, .call 3 .up]
      demo_sema_free rfl (.call 2 .try_down)
      { demo_sema_free with sema := (sema_try_down demo_sema_free.sema).1 } rfl⟩

/-- Instance of C3, with the examples of the spec: of the waiters 1 (priority 1) and 2
(priority 5) `sema_up` wakes 2; once the priority of 1 is raised to 6 it wakes 1. -/
theorem sema_up_wakes_highest_priority_witness :
    demo_sema_blocked.sema.waiters ≠ [] ∧
      (sema_up demo_priority { value := 0, waiters := [1, 2] }).2 = some 2 ∧
      (sema_up (Function.update demo_priority 1 6) { value := 0, waiters := [1, 2] }).2
        = some 1 ∧
      (sema_run_events demo_sema_blocked [.call 3 .up]).pc_of 2 = .resumed ∧
      (sema_run_events demo_sema_blocked [.call 3 .up]).pc_of 1 = .blocked ∧
      (sema_run_events demo_sema_blocked [.set_priority 1 6, .call 3 .up]).pc_of 1
        = .resumed ∧
      (sema_run_events demo_sema_blocked [.set_priority 1 6, .call 3 .up]).pc_of 2
        = .blocked ∧
      (∃ t rest, sema_up demo_priority demo_sema_blocked.sema
          = ({ value := uint_inc demo_sema_blocked.sema.value, waiters := rest }, some t) ∧
        (∀ u ∈ rest, demo_priority t ≥ demo_priority u) ∧
        (t :: rest).Perm demo_sema_blocked.sema.waiters) :=
  ⟨by decide, by decide, by decide, by decide, by decide, by decide, by decide,
    sema_up_wakes_highest_priority demo_priority demo_sema_blocked.sema (by decide)⟩

/-- Instance of C4: a second `lock_acquire` by the holder 1, and a `lock_release` by thread 3,
which never acquired, panic. -/
theorem lock_contract_violation_aborts_witness :
    demo_held.lock.holder = some 1 ∧ demo_held.lock.holder ≠ some 3 ∧
      demo_held.panicked = false ∧ demo_held.pc_of 1 = .idle ∧ demo_held.pc_of 3 = .idle ∧
      step demo_held (.call 1 .lock_acquire) = some (panic demo_held) ∧
      step demo_held (.call 1 .lock_try_acquire) = some (panic demo_held) ∧
      step demo_held (.call 3 .lock_release) = some (panic demo_held) ∧
      step demo_boot (.call 3 .lock_release) = some (panic demo_boot) :=
  ⟨by decide, by decide, by decide, by decide, by decide,
    ((lock_contract_violation_aborts demo_held 1).2.2.2 (by decide) (by decide)).1
      (by decide) |>.1,
    ((lock_contract_violation_aborts demo_held 1).2.2.2 (by decide) (by decide)).1
      (by decide) |>.2,
    ((lock_contract_violation_aborts demo_held 3).2.2.2 (by decide) (by decide)).2
      (by decide),
    ((lock_contract_violation_aborts demo_boot 3).2.2.2 (by decide) (by decide)).2
      (by decide)⟩

/-- Instance of C5: thread 1 was signalled and returns from `cond_wait` holding the lock. -/
theorem cond_wait_returns_holding_witness :
    reachable demo_resumed ∧
      step demo_resumed (.run 1) = some (lock_acquire_set demo_resumed 1) ∧
      in_wait (demo_resumed.pc_of 1) = true ∧
      in_wait ((lock_acquire_set demo_resumed 1).pc_of 1) = false ∧
      (event.run 1 = .run 1 ∧ demo_resumed.pc_of 1 = .acq_set true ∧
        (lock_acquire_set demo_resumed 1).pc_of 1 = .idle ∧
        (lock_acquire_set demo_resumed 1).lock.holder = some 1 ∧
        lock_held_by_current_thread (lock_acquire_set demo_resumed 1).lock 1 = true ∧
        (lock_acquire_set demo_resumed 1).lock.semaphore.value = 0 ∧
        (lock_acquire_set demo_resumed 1).owns 1 = true ∧
        (lock_acquire_set demo_resumed 1).panicked = false) :=
  ⟨reachable_run_events _ _ (reachable.boot _ _), rfl, by decide, by decide,
    cond_wait_returns_holding demo_resumed (reachable_run_events _ _ (reachable.boot _ _))
      (.run 1) (lock_acquire_set demo_resumed 1) 1 rfl (by decide) (by decide)⟩

/-- Instance of C6: of the two threads waiting, `cond_signal` wakes thread 2 and leaves
thread 1 blocked. -/
theorem cond_signal_single_wake_witness :
    demo_two_waiting.panicked = false ∧ demo_two_waiting.pc_of 3 = .idle ∧
      demo_two_waiting.lock.holder = some 3 ∧ demo_two_waiting.cond.waiters = [1, 2] ∧
      demo_two_waiting.pc_of 1 = .wait_blocked ∧ demo_two_waiting.pc_of 2 = .wait_blocked ∧
      (cond_signal demo_two_waiting 3).map
          (fun s => (s.cond.waiters, s.signalled, s.pc_of 1, s.pc_of 2, s.cell 1, s.cell 2))
        = some ([1], [2], .wait_blocked, .wait_down, { value := 0, waiters := [1] },
            { value := 1, waiters := [] }) ∧
      (∃ c rest s1, cond_signal demo_two_waiting 3 = some s1 ∧
        s1.cond.waiters = rest ∧ (c :: rest).Perm demo_two_waiting.cond.waiters ∧
        s1.cond.waiters.length + 1 = demo_two_waiting.cond.waiters.length ∧
        s1.signalled = demo_two_waiting.signalled ++ [c] ∧
        s1.cell c = (sema_up demo_two_waiting.priority (demo_two_waiting.cell c)).1 ∧
        s1.ups c = demo_two_waiting.ups c + 1 ∧
        (∀ d, d ≠ c → s1.cell d = demo_two_waiting.cell d ∧ s1.ups d = demo_two_waiting.ups d) ∧
        s1.lock = demo_two_waiting.lock ∧ s1.panicked = false ∧ s1.pc_of 3 = .idle ∧
        (∀ u, u ≠ 3 → s1.pc_of u = unblock demo_two_waiting.pc_of
          (sema_up demo_two_waiting.priority (demo_two_waiting.cell c)).2 u) ∧
        (∀ u, u ≠ 3 → u ∉ (demo_two_waiting.cell c).waiters →
          s1.pc_of u = demo_two_waiting.pc_of u)) :=
  ⟨by decide, by decide, by decide, by decide, by decide, by decide, by decide,
    cond_signal_single_wake demo_two_waiting 3 (by decide) (by decide) (by decide)
      (by decide)⟩

/-- Instance of C7: the cells are stored as 1, 2; the cell of thread 2, of priority 5, is
signalled. -/
theorem cond_signal_picks_highest_witness :
    demo_two_waiting.panicked = false ∧ demo_two_waiting.pc_of 3 = .idle ∧
      demo_two_waiting.lock.holder = some 3 ∧ demo_two_waiting.cond.waiters ≠ [] ∧
      (∀ c ∈ demo_two_waiting.cond.waiters, (demo_two_waiting.cell c).waiters = [c]) ∧
      demo_two_waiting.priority 1 = 1 ∧ demo_two_waiting.priority 2 = 5 ∧
      (∃ c rest s1, cond_signal demo_two_waiting 3 = some s1 ∧
        s1.cond.waiters = rest ∧ (c :: rest).Perm demo_two_waiting.cond.waiters ∧
        s1.signalled = demo_two_waiting.signalled ++ [c] ∧
        (sema_up demo_two_waiting.priority (demo_two_waiting.cell c)).2 = some c ∧
        ∀ d ∈ rest, demo_two_waiting.priority c ≥ demo_two_waiting.priority d) :=
  ⟨by decide, by decide, by decide, by decide, by decide, by decide, by decide,
    cond_signal_picks_highest demo_two_waiting 3 (fun c => c) (by decide) (by decide)
      (by decide) (by decide) (by decide)⟩

/-- Instance of C8: the cells of threads 2 and 1 are signalled, in this order, and the queue
is empty. -/
theorem cond_broadcast_complete_witness :
    demo_two_waiting.panicked = false ∧ demo_two_waiting.pc_of 3 = .idle ∧
      demo_two_waiting.lock.holder = some 3 ∧ demo_two_waiting.cond.waiters.Nodup ∧
      (∀ c ∈ demo_two_waiting.cond.waiters, (demo_two_waiting.cell c).waiters = [c]) ∧
      2 * demo_two_waiting.cond.waiters.length + 1 ≤ 5 ∧
      (cond_broadcast 5 demo_two_waiting 3).map
          (fun s => (s.cond.waiters, s.signalled, s.pc_of 1, s.pc_of 2, s.pc_of 3))
        = some ([], [2, 1], .wait_down, .wait_down, .idle) ∧
      (∃ s1 woken, cond_broadcast 5 demo_two_waiting 3 = some s1 ∧
        s1.cond.waiters = [] ∧ s1.signalled = demo_two_waiting.signalled ++ woken ∧
        woken.length = demo_two_waiting.cond.waiters.length ∧
        woken.Perm demo_two_waiting.cond.waiters ∧
        woken.Pairwise
          (fun a b => demo_two_waiting.priority a ≥ demo_two_waiting.priority b) ∧
        (∀ c ∈ demo_two_waiting.cond.waiters, woken.count c = 1 ∧
          s1.ups c = demo_two_waiting.ups c + 1 ∧
          s1.cell c = { value := uint_inc (demo_two_waiting.cell c).value, waiters := [] }) ∧
        (∀ c, c ∉ demo_two_waiting.cond.waiters → woken.count c = 0 ∧
          s1.ups c = demo_two_waiting.ups c ∧ s1.cell c = demo_two_waiting.cell c) ∧
        s1.pc_of 3 = .idle ∧ s1.panicked = false ∧ s1.lock = demo_two_waiting.lock) :=
  ⟨by decide, by decide, by decide, by decide, by decide, by decide, by decide,
    cond_broadcast_complete demo_two_waiting 3 (fun c => c) 5 (by decide) (by decide)
      (by decide) (by decide) (by decide) (by decide)⟩

/-- Instance of C10 as amended: thread 4 does not hold the lock, two cells are queued, its
`cond_broadcast` panics. -/
theorem cond_broadcast_without_lock_witness :
    demo_two_waiting.panicked = false ∧ demo_two_waiting.pc_of 4 = .idle ∧
      demo_two_waiting.lock.holder ≠ some 4 ∧ 1 ≤ 1 ∧ demo_two_waiting.cond.waiters ≠ [] ∧
      (cond_broadcast 1 demo_two_waiting 4).map (fun s => s.panicked) = some true ∧
      ((demo_two_waiting.cond.waiters ≠ [] →
        ∃ s1, cond_broadcast 1 demo_two_waiting 4 = some s1 ∧ s1.panicked = true ∧
          s1.lock = demo_two_waiting.lock ∧ s1.cond = demo_two_waiting.cond ∧
          s1.cell = demo_two_waiting.cell ∧ s1.signalled = demo_two_waiting.signalled) ∧
       (demo_two_waiting.cond.waiters = [] →
        ∃ s1, cond_broadcast 1 demo_two_waiting 4 = some s1 ∧ s1.panicked = false ∧
          s1.pc_of 4 = .idle ∧ s1.lock = demo_two_waiting.lock ∧
          s1.cond = demo_two_waiting.cond ∧ s1.cell = demo_two_waiting.cell ∧
          s1.signalled = demo_two_waiting.signalled) ∧
       step demo_two_waiting (.call 4 .cond_signal) = some (panic demo_two_waiting) ∧
       step demo_two_waiting (.call 4 .cond_wait) = some (panic demo_two_waiting)) :=
  ⟨by decide, by decide, by decide, by decide, by decide, by decide,
    cond_broadcast_without_lock demo_two_waiting 4 1 (by decide) (by decide) (by decide)
      (by decide)⟩

/-- Instance of C11: on a count of 1 `sema_try_down` returns true and leaves 0; on a count
of 0 with a waiter it returns false and changes nothing. -/
theorem sema_try_down_spec_witness :
    (sema_try_down { value := 1, waiters := [] }).2 = true ∧
      (sema_try_down { value := 0, waiters := [7] })
        = ({ value := 0, waiters := [7] }, false) ∧
      (sema_try_down { value := 1, waiters := [] }).1.value + 1 = 1 ∧
      (sema_try_down { value := 1, waiters := [] }).1.value = 1 - 1 ∧
      demo_sema_free.pc_of 2 = .outside ∧
      sema_step demo_sema_free (.call 2 .try_down)
        = some { demo_sema_free with sema := (sema_try_down demo_sema_free.sema).1 } :=
  ⟨by decide, by decide,
    ((sema_try_down_spec { value := 1, waiters := [] }).2.1 (by decide)).1,
    ((sema_try_down_spec { value := 1, waiters := [] }).2.1 (by decide)).2,
    by decide,
    (sema_try_down_spec { value := 1, waiters := [] }).2.2.2.2 demo_sema_free 2 (by decide)⟩

/-- Instance of C12: on the free lock thread 1 succeeds and becomes the holder; while thread 1
holds the lock the call of thread 3 returns false and changes nothing. -/
theorem lock_try_acquire_spec_witness :
    demo_boot.panicked = false ∧ demo_boot.pc_of 1 = .idle ∧
      demo_boot.lock.holder ≠ some 1 ∧
      (lock_try_acquire demo_boot 1).map (fun r => (r.1.lock, r.2))
        = some ({ holder := some 1, semaphore := { value := 0, waiters := [] } }, true) ∧
      (lock_try_acquire demo_held 3).map (fun r => (r.1.lock, r.2))
        = some (demo_held.lock, false) ∧
      (∃ s1 ok, lock_try_acquire demo_boot 1 = some (s1, ok) ∧
        (ok = true ↔ demo_boot.lock.semaphore.value > 0) ∧
        (ok = true → s1.lock.holder = some 1 ∧
          s1.lock.semaphore.value + 1 = demo_boot.lock.semaphore.value) ∧
        (ok = false → s1.lock = demo_boot.lock) ∧
        s1.lock.semaphore.waiters = demo_boot.lock.semaphore.waiters ∧
        s1.pc_of 1 = .idle ∧ (∀ u, u ≠ 1 → s1.pc_of u = demo_boot.pc_of u) ∧
        s1.panicked = false ∧ s1.cond = demo_boot.cond ∧ s1.cell = demo_boot.cell) :=
  ⟨by decide, by decide, by decide, by decide, by decide,
    lock_try_acquire_spec demo_boot 1 (by decide) (by decide) (by decide)⟩

/-- Instance of C15: thread 1 holds the lock and nobody waits; its `cond_signal` and its
`cond_broadcast` leave the kernel as it was. -/
theorem cond_signal_no_waiters_witness :
    demo_held.panicked = false ∧ demo_held.pc_of 1 = .idle ∧
      demo_held.lock.holder = some 1 ∧ demo_held.cond.waiters = [] ∧ 1 ≤ 1 ∧
      (cond_signal demo_held 1 = some demo_held ∧
        cond_broadcast 1 demo_held 1 = some demo_held) :=
  ⟨by decide, by decide, by decide, by decide, by decide,
    cond_signal_no_waiters demo_held 1 1 (by decide) (by decide) (by decide) (by decide)
      (by decide)⟩

/-- Instance of C17: thread 1 holds the lock, the count is 0. -/
theorem lock_representation_invariant_witness :
    reachable demo_held ∧ demo_held.lock.holder = some 1 ∧
      ((demo_held.lock.semaphore.value = 0 ∨ demo_held.lock.semaphore.value = 1) ∧
       (∀ t, demo_held.lock.holder = some t → demo_held.lock.semaphore.value = 0) ∧
       (demo_held.lock.semaphore.value = 1 → demo_held.lock.holder = none)) :=
  ⟨reachable_run_events _ _ (reachable.boot _ _), by decide,
    lock_representation_invariant demo_held (reachable_run_events _ _ (reachable.boot _ _))⟩

/-- Instance of C19: `sema_up` on the count `2 ^ 32 - 1` gives 0, and `sema_try_down` then
fails; on the count 5 it gives 6. -/
theorem sema_up_overflow_witness :
    (sema_init 4294967295).value = UINT_RANGE - 1 ∧
      (sema_up demo_priority (sema_init 4294967295)).1.value = 0 ∧
      (sema_try_down (sema_up demo_priority (sema_init 4294967295)).1).2 = false ∧
      (sema_up demo_priority (sema_init 5)).1.value = 5 + 1 :=
  ⟨by decide,
    ((sema_up_overflow demo_priority (sema_init 4294967295)).2.2 (by decide)).1,
    ((sema_up_overflow demo_priority (sema_init 4294967295)).2.2 (by decide)).2,
    (sema_up_overflow demo_priority (sema_init 5)).2.1 (by decide)⟩

/-- Instance of C16: threads 1 and 2 are blocked on a count of 0; thread 3 calls `sema_up`,
which wakes thread 2 (priority 5); thread 4 takes the unit with `sema_try_down`; thread 2
resumes, finds the count 0 and blocks again. -/
theorem sema_wake_not_availability_witness :
    demo_sema_blocked.sema.value = 0 ∧ demo_sema_blocked.pc_of 2 = .blocked ∧
      (sema_up demo_sema_blocked.priority demo_sema_blocked.sema).2 = some 2 ∧
      demo_sema_blocked.pc_of 3 = .outside ∧ demo_sema_blocked.pc_of 4 = .outside ∧
      (sema_run_events demo_sema_blocked [.call 3 .up]).sema.value = 1 ∧
      (sema_run_events demo_sema_blocked [.call 3 .up]).pc_of 2 = .resumed ∧
      (sema_run_events demo_sema_blocked
        [.call 3 .up, .call 4 .try_down, .resume 2]).sema
        = { value := 0, waiters := [2, 1] } ∧
      ((∃ s3, sema_exec demo_sema_blocked [.call 3 .up, .call 4 .try_down, .resume 2]
          = some s3 ∧
        s3.pc_of 2 = .blocked ∧ 2 ∈ s3.sema.waiters ∧ s3.sema.value = 0) ∧
       (∃ s3, sema_exec demo_sema_blocked [.call 3 .up, .call 4 .down, .resume 2] = some s3 ∧
        s3.pc_of 2 = .blocked ∧ 2 ∈ s3.sema.waiters ∧ s3.sema.value = 0 ∧
        s3.pc_of 4 = .outside)) :=
  ⟨by decide, by decide, by decide, by decide, by decide, by decide, by decide, by decide,
    (sema_wake_not_availability demo_sema_blocked 2 3 4).2.2.2 (by decide) (by decide)
      (by decide) (by decide) (by decide)⟩

/-- Instance of C13: the cells of threads 1 and 2 are queued, both threads are suspended
inside `cond_wait`. -/
theorem cond_waiters_live_witness :
    reachable demo_two_waiting ∧ demo_two_waiting.cond.waiters = [1, 2] ∧
      demo_two_waiting.pc_of 1 = .wait_blocked ∧ demo_two_waiting.pc_of 2 = .wait_blocked ∧
      ((∀ c ∈ demo_two_waiting.cond.waiters,
          queued_pc (demo_two_waiting.pc_of c) = true ∧
          in_wait (demo_two_waiting.pc_of c) = true ∧
          (demo_two_waiting.cell c).value = 0) ∧
       (∀ e s1 c, step demo_two_waiting e = some s1 →
          queued_pc (demo_two_waiting.pc_of c) = true → queued_pc (s1.pc_of c) = false →
          e = .run c ∧ demo_two_waiting.pc_of c = .wait_down ∧
          c ∉ demo_two_waiting.cond.waiters ∧ c ∉ s1.cond.waiters)) :=
  ⟨reachable_run_events _ _ (reachable.boot _ _), by decide, by decide, by decide,
    cond_waiters_live demo_two_waiting (reachable_run_events _ _ (reachable.boot _ _))⟩

/-- Instance of C14: the private semaphore of thread 1, suspended in `cond_wait`, has count
0 and thread 1 as its only waiter. -/
theorem private_semaphore_invariant_witness :
    reachable demo_two_waiting ∧
      demo_two_waiting.cell 1 = { value := 0, waiters := [1] } ∧
      demo_two_waiting.ups 1 = 0 ∧
      ((demo_two_waiting.cell 1).value ≤ 1 ∧
       ((demo_two_waiting.cell 1).waiters = [] ∨ (demo_two_waiting.cell 1).waiters = [1]) ∧
       (demo_two_waiting.cell 1).waiters.length ≤ 1 ∧
       (∀ u ∈ (demo_two_waiting.cell 1).waiters,
          u = 1 ∧ demo_two_waiting.pc_of 1 = .wait_blocked) ∧
       demo_two_waiting.ups 1 ≤ 1 ∧
       (∀ x b, demo_two_waiting.pc_of x = .sig_up 1 b →
          demo_two_waiting.ups 1 = 0 ∧ (demo_two_waiting.cell 1).value = 0 ∧
          in_wait (demo_two_waiting.pc_of 1) = true ∧
          ∀ y b1, demo_two_waiting.pc_of y = .sig_up 1 b1 → y = x)) :=
  ⟨reachable_run_events _ _ (reachable.boot _ _), by decide, by decide,
    private_semaphore_invariant demo_two_waiting
      (reachable_run_events _ _ (reachable.boot _ _)) 1⟩

end Synch
